import Mathlib

/-!
Verification of the maf-lib core against its specification.

The definitions below are a shallow embedding of the Python sources:
  - `maflib/sort_order.py`   (sort keys, sort orders, order checking)
  - `maflib/overlap_iter.py` (overlap iterators, allele predicates)
  - `maflib/sorter.py`       (disk-spilling sorter and k-way heap merge,
                              including a faithful model of CPython heapq)
  - `maflib/locatable.py`    (locatable records)

Python integers are modelled as `Int`, Python strings as `String`,
`None` as `Option.none`.  Fallible code returns `Except`.  Loops whose
termination is not structural take an explicit fuel argument; each use
supplies provably sufficient fuel.
-/

/-! ### Sort keys (`maflib/sort_order.py`)

`SortOrderKey.compare` is Python
`(this > that) - (this < that)` with the `None`-handling of lines 47-58.
The comparison is generic in the component type, matching the duck-typed
Python code which applies it to strings, integers and contig ranks. -/

/-- `SortOrderKey.compare`: `None` sorts strictly greater than any present
value, two `None`s compare equal, otherwise the sign of the comparison. -/
def pycmp {β : Type} [LinearOrder β] (this that : Option β) : Int :=
  match this, that with
  | none, none => 0
  | none, some _ => 1
  | some _, none => -1
  | some a, some b => (if b < a then (1 : Int) else 0) - (if a < b then (1 : Int) else 0)

/-- A `_CoordinateKey` (sort_order.py lines 127-158): chromosome (either a
contig rank or a raw chromosome value), start and end, each optional. -/
structure CoordKey (χ : Type) where
  chromosome : Option χ
  start : Option Int
  end_ : Option Int
  deriving DecidableEq, Repr

/-- `_CoordinateKey.__cmp__`: compare chromosome, then start, then end,
each via `SortOrderKey.compare`. -/
def coordCmp {χ : Type} [LinearOrder χ] (a b : CoordKey χ) : Int :=
  let diff := pycmp a.chromosome b.chromosome
  let diff := if diff = 0 then pycmp a.start b.start else diff
  if diff = 0 then pycmp a.end_ b.end_ else diff

/-- A `_BarcodesAndCoordinateKey` (sort_order.py lines 202-227): tumor
barcode and matched normal barcode in front of a coordinate key. -/
structure BarcodesCoordKey (χ : Type) where
  tumor_barcode : Option String
  normal_barcode : Option String
  coord : CoordKey χ
  deriving DecidableEq, Repr

/-- `_BarcodesAndCoordinateKey.__cmp__`: compare tumor barcode, then
normal barcode, then defer to the coordinate comparison. -/
def barcodesCoordCmp {χ : Type} [LinearOrder χ] (a b : BarcodesCoordKey χ) : Int :=
  let diff := pycmp a.tumor_barcode b.tumor_barcode
  let diff := if diff = 0 then pycmp a.normal_barcode b.normal_barcode else diff
  if diff = 0 then coordCmp a.coord b.coord else diff

/-- First non-zero value of a list of component comparisons, 0 if all
components compare equal (the lexicographic rule the composite keys use). -/
def lexFirst : List Int → Int
  | [] => 0
  | d :: rest => if d = 0 then lexFirst rest else d

theorem lexFirst_single_absorb (d : Int) : (if d = 0 then (0 : Int) else d) = d := by
  split <;> simp_all

/-- C2: `SortOrderKey.compare` returns 0 on two absent values, 1 when only
the first is absent, -1 when only the second is absent, and otherwise the
sign of the underlying comparison; and both composite keys
(`_CoordinateKey`, `_BarcodesAndCoordinateKey`) apply this helper
component-by-component (tumor barcode, normal barcode, chromosome, start,
end) in lexicographic fashion. -/
theorem compare_none_greatest_and_composite_lexicographic :
    (∀ (β : Type) (inst : LinearOrder β), pycmp (β := β) none none = 0)
    ∧ (∀ (β : Type) (inst : LinearOrder β) (b : β), pycmp none (some b) = 1)
    ∧ (∀ (β : Type) (inst : LinearOrder β) (a : β), pycmp (some a) none = -1)
    ∧ (∀ (β : Type) (inst : LinearOrder β) (a b : β),
        pycmp (some a) (some b) =
          if a < b then -1 else if b < a then 1 else 0)
    ∧ (∀ (χ : Type) (inst : LinearOrder χ) (a b : CoordKey χ),
        coordCmp a b =
          lexFirst [pycmp a.chromosome b.chromosome,
                    pycmp a.start b.start,
                    pycmp a.end_ b.end_])
    ∧ (∀ (χ : Type) (inst : LinearOrder χ) (a b : BarcodesCoordKey χ),
        barcodesCoordCmp a b =
          lexFirst [pycmp a.tumor_barcode b.tumor_barcode,
                    pycmp a.normal_barcode b.normal_barcode,
                    pycmp a.coord.chromosome b.coord.chromosome,
                    pycmp a.coord.start b.coord.start,
                    pycmp a.coord.end_ b.coord.end_]) := by
  refine ⟨fun β _ => rfl, fun β _ b => rfl, fun β _ a => rfl, ?_, ?_, ?_⟩
  · intro β _ a b
    rcases lt_trichotomy a b with h | h | h
    · simp [pycmp, h, not_lt_of_lt h]
    · simp [pycmp, h, lt_irrefl]
    · simp [pycmp, h, not_lt_of_lt h]
  · intro χ _ a b
    simp only [coordCmp, lexFirst]
    by_cases h1 : pycmp a.chromosome b.chromosome = 0 <;>
      by_cases h2 : pycmp a.start b.start = 0 <;>
      simp [h1, h2, lexFirst_single_absorb]
  · intro χ _ a b
    simp only [barcodesCoordCmp, coordCmp, lexFirst]
    by_cases h1 : pycmp a.tumor_barcode b.tumor_barcode = 0 <;>
      by_cases h2 : pycmp a.normal_barcode b.normal_barcode = 0 <;>
      by_cases h3 : pycmp a.coord.chromosome b.coord.chromosome = 0 <;>
      by_cases h4 : pycmp a.coord.start b.coord.start = 0 <;>
      simp [h1, h2, h3, h4, lexFirst_single_absorb]

/-! ### Locatable records and key construction (`maflib/locatable.py`,
`maflib/sort_order.py` lines 127-146) -/

/-- A `Locatable` (locatable.py): chromosome, start, end, all optional. -/
structure PyLoc where
  chromosome : Option String
  start : Option Int
  end_ : Option Int
  deriving DecidableEq, Repr

/-- Rendering of a Python value in a `%s` format slot: `None` prints as
the string `None`. -/
def pyShowOptStr : Option String → String
  | none => "None"
  | some s => s

/-- An ASCII apostrophe (the quote character used by the source's error
message). -/
def pyQuote : String := String.singleton (Char.ofNat 39)

/-- The `ValueError` message of `_CoordinateKey.__init__` lines 142-145. -/
def unknownContigMsg (chromosome : Option String) (contigs : List String) : String :=
  "Could not find contig " ++ pyQuote ++ pyShowOptStr chromosome ++ pyQuote ++
    " in list of contigs: " ++ String.intercalate ", " contigs

/-- Chromosome component resolution of `_CoordinateKey.__init__` lines
137-145: with a non-empty contig list the chromosome is replaced by its
index in the list (`ValueError` if absent, including for `None`); with an
empty contig list (`if contigs:` is falsy) the raw value is kept.
`Sum.inl` carries a rank, `Sum.inr` a raw chromosome value. -/
def resolveChromosome (chromosome : Option String) (contigs : List String) :
    Except String (Option (Nat ⊕ String)) :=
  match contigs with
  | [] => .ok (chromosome.map Sum.inr)
  | _ :: _ =>
    match chromosome with
    | some c =>
      match contigs.indexOf? c with
      | some idx => .ok (some (Sum.inl idx))
      | none => .error (unknownContigMsg (some c) contigs)
    | none => .error (unknownContigMsg none contigs)

/-- `_CoordinateKey.__init__`: resolve the chromosome against the contig
list and keep the record's start and end. -/
def mkCoordinateKey (record : PyLoc) (contigs : List String) :
    Except String (CoordKey (Nat ⊕ String)) :=
  (resolveChromosome record.chromosome contigs).map
    (fun ch => ⟨ch, record.start, record.end_⟩)

/-- A `MafRecord` as seen by `_BarcodesAndCoordinateKey.__init__`:
a locatable plus the two barcode column values. -/
structure PyMafRecord where
  tumor_barcode : Option String
  normal_barcode : Option String
  loc : PyLoc
  deriving DecidableEq, Repr

/-- `_BarcodesAndCoordinateKey.__init__`: the two barcode values in front
of the coordinate key built by the superclass constructor. -/
def mkBarcodesCoordKey (record : PyMafRecord) (contigs : List String) :
    Except String (BarcodesCoordKey (Nat ⊕ String)) :=
  (mkCoordinateKey record.loc contigs).map
    (fun ck => ⟨record.tumor_barcode, record.normal_barcode, ck⟩)

/-- C6: with a non-empty contig list, a chromosome absent from the list
makes key construction fail with a message naming the chromosome and the
contig list; a present chromosome is replaced by its index; an empty
contig list keeps the raw chromosome value.  The same holds for the
barcode-extended key, whose coordinate part is built by the same code. -/
theorem coordinate_key_contig_resolution (record : PyLoc) (contigs : List String)
    (c : String) (hc : record.chromosome = some c) :
    (contigs ≠ [] → c ∉ contigs →
      mkCoordinateKey record contigs =
        .error ("Could not find contig " ++ pyQuote ++ c ++ pyQuote ++
          " in list of contigs: " ++ String.intercalate ", " contigs))
    ∧ (∀ idx, contigs.indexOf? c = some idx →
        mkCoordinateKey record contigs =
          .ok ⟨some (Sum.inl idx), record.start, record.end_⟩)
    ∧ (contigs = [] →
        mkCoordinateKey record contigs =
          .ok ⟨some (Sum.inr c), record.start, record.end_⟩)
    ∧ (∀ (tb nb : Option String),
        mkBarcodesCoordKey ⟨tb, nb, record⟩ contigs =
          (mkCoordinateKey record contigs).map (fun ck => ⟨tb, nb, ck⟩)) := by
  refine ⟨?_, ?_, ?_, fun tb nb => rfl⟩
  · intro hne habs
    match hcs : contigs with
    | [] => exact absurd rfl hne
    | c0 :: rest =>
      have hidx : (c0 :: rest).indexOf? c = none := by
        rw [List.indexOf?_eq_none_iff]
        intro x hx hxeq
        exact habs ((beq_iff_eq.mp hxeq) ▸ hx)
      simp [mkCoordinateKey, resolveChromosome, hc, hidx, unknownContigMsg,
        Except.map, pyShowOptStr]
  · intro idx hidx
    have hne : contigs ≠ [] := by
      intro h
      rw [h] at hidx
      simp [List.indexOf?] at hidx
    match contigs with
    | [] => exact absurd rfl hne
    | c0 :: rest => simp_all [mkCoordinateKey, resolveChromosome, Except.map]
  · intro h
    subst h
    simp [mkCoordinateKey, resolveChromosome, hc, Except.map]

/-- C6 witness: the spec's own example, chromosome chrX against contigs
chr1, chr2. -/
theorem coordinate_key_contig_resolution_witness :
    mkCoordinateKey ⟨some "chrX", some 1, some 2⟩ ["chr1", "chr2"] =
      .error ("Could not find contig " ++ pyQuote ++ "chrX" ++ pyQuote ++
        " in list of contigs: " ++ String.intercalate ", " ["chr1", "chr2"]) := by
  exact (coordinate_key_contig_resolution ⟨some "chrX", some 1, some 2⟩
    ["chr1", "chr2"] "chrX" rfl).1 (by decide) (by decide)

/-! ### Sort order configuration (`maflib/sort_order.py` lines 161-199,
`maflib/overlap_iter.py` lines 42-82)

`Coordinate.__init__` reads contigs from a FASTA index file when a
`fasta_index` path is given; the file contents are modelled here as the
already-parsed list of first columns (the parsing itself is file I/O
outside this embedding).  `none` models a falsy `fasta_index`. -/

/-- `Coordinate.__init__`: contigs come from the FASTA index when given,
else from the explicit contig list when truthy (non-empty), else empty. -/
def coordinateContigs (fastaContigs : Option (List String))
    (contigs : Option (List String)) : List String :=
  match fastaContigs with
  | some cs => cs
  | none =>
    match contigs with
    | some (c :: cs) => c :: cs
    | _ => []

/-- `LocatableOverlapIterator.__init__` lines 63-70: with
`by_barcodes=False` the sort order is `Coordinate(fasta_index=fasta_index)`
— the `contigs` argument is not passed — while with `by_barcodes=True` it
is `BarcodesAndCoordinate(fasta_index=fasta_index, contigs=contigs)`. -/
def overlapIterContigs (fastaContigs : Option (List String))
    (contigs : Option (List String)) (by_barcodes : Bool) : List String :=
  if by_barcodes then coordinateContigs fastaContigs contigs
  else coordinateContigs fastaContigs none

/-- C9: with `by_barcodes=False` the contigs argument is ignored — the
contig list of the sort order is computed from the FASTA index alone — so
without a FASTA index the key of every record keeps the raw chromosome
value even when the caller supplied contigs; only the `by_barcodes=True`
path passes the contigs through. -/
theorem overlap_iterator_ignores_contigs_without_barcodes :
    (∀ fastaContigs contigs,
      overlapIterContigs fastaContigs contigs false =
        coordinateContigs fastaContigs none)
    ∧ (∀ contigs, overlapIterContigs none contigs false = [])
    ∧ (∀ (contigs : Option (List String)) (record : PyLoc),
        mkCoordinateKey record (overlapIterContigs none contigs false) =
          .ok ⟨record.chromosome.map Sum.inr, record.start, record.end_⟩)
    ∧ (∀ fastaContigs (cs : List String),
        overlapIterContigs fastaContigs (some cs) true =
          coordinateContigs fastaContigs (some cs)) := by
  refine ⟨fun f c => rfl, fun c => rfl, ?_, fun f cs => rfl⟩
  intro contigs record
  simp [overlapIterContigs, coordinateContigs, mkCoordinateKey,
    resolveChromosome, Except.map]

/-! ### Sort order enforcement (`maflib/sort_order.py` lines 248-295)

`SortOrderChecker.__init__` stores `sort_order.sort_key()` or `None` when
`sort_key()` raises `NotImplementedError` (the `Unknown` and `Unsorted`
orders).  The checker is modelled generically in the record and key types
and in the key comparison, matching the duck-typed source. -/

/-- The four registered sort orders (`SortOrder.all`). -/
inductive PySortOrder where
  | unknown
  | unsorted
  | coordinate (contigs : List String)
  | barcodesAndCoordinate (contigs : List String)
  deriving DecidableEq, Repr

/-- Whether `sort_key()` returns a key function: `Unknown.sort_key` and
`Unsorted.sort_key` raise `NotImplementedError` (lines 111-124), which
`SortOrderChecker.__init__` turns into a `None` sort function. -/
def sortOrderHasKeyFn : PySortOrder → Bool
  | .unknown => false
  | .unsorted => false
  | .coordinate _ => true
  | .barcodesAndCoordinate _ => true

/-- `SortOrderChecker.__iadd__` lines 264-271: with a previous record and
a sort function, raise iff the new key compares strictly less than the
previous key; always remember the new record.  `sortF = none` models a
checker built from `Unknown`/`Unsorted`. -/
def checkerAdd {Rec Key : Type} (cmpKey : Key → Key → Int) (toStr : Rec → String)
    (sortF : Option (Rec → Key)) (last : Option Rec) (record : Rec) :
    Except String (Option Rec) :=
  match last, sortF with
  | some lastRec, some f =>
    if cmpKey (f record) (f lastRec) < 0 then
      .error ("Records out of order: " ++ toStr lastRec ++ " " ++ toStr record)
    else .ok (some record)
  | _, _ => .ok (some record)

/-- `SortOrderEnforcingIterator` (lines 278-295): pass records of the
wrapped iterator through the checker, yielding each unchanged, stopping
with the checker error at the first out-of-order record. -/
def enforceIterAll {Rec Key : Type} (cmpKey : Key → Key → Int) (toStr : Rec → String)
    (sortF : Option (Rec → Key)) : Option Rec → List Rec → Except String (List Rec)
  | _, [] => .ok []
  | last, r :: rest =>
    match checkerAdd cmpKey toStr sortF last r with
    | .error e => .error e
    | .ok last2 => (enforceIterAll cmpKey toStr sortF last2 rest).map (fun out => r :: out)

/-- C7: with no key function (`Unknown`/`Unsorted`) every element passes
unchecked; otherwise the checker errors — naming both records — exactly
when the new key is strictly less than the previous key, and passes
elements with equal or greater keys (and the first element). -/
theorem sort_order_checker_characterization :
    (sortOrderHasKeyFn .unknown = false ∧ sortOrderHasKeyFn .unsorted = false)
    ∧ (∀ (Rec Key : Type) (cmpKey : Key → Key → Int) (toStr : Rec → String)
        (last : Option Rec) (r : Rec),
        checkerAdd cmpKey toStr none last r = .ok (some r))
    ∧ (∀ (Rec Key : Type) (cmpKey : Key → Key → Int) (toStr : Rec → String)
        (sortF : Option (Rec → Key)) (last : Option Rec) (rs : List Rec),
        sortF = none → enforceIterAll cmpKey toStr sortF last rs = .ok rs)
    ∧ (∀ (Rec Key : Type) (cmpKey : Key → Key → Int) (toStr : Rec → String)
        (f : Rec → Key) (r : Rec),
        checkerAdd cmpKey toStr (some f) none r = .ok (some r))
    ∧ (∀ (Rec Key : Type) (cmpKey : Key → Key → Int) (toStr : Rec → String)
        (f : Rec → Key) (lastRec r : Rec),
        (cmpKey (f r) (f lastRec) < 0 →
          checkerAdd cmpKey toStr (some f) (some lastRec) r =
            .error ("Records out of order: " ++ toStr lastRec ++ " " ++ toStr r))
        ∧ (¬ cmpKey (f r) (f lastRec) < 0 →
          checkerAdd cmpKey toStr (some f) (some lastRec) r = .ok (some r))) := by
  refine ⟨⟨rfl, rfl⟩, fun Rec Key cmpKey toStr last r => ?_, ?_, fun _ _ _ _ _ _ => rfl, ?_⟩
  · cases last <;> rfl
  · intro Rec Key cmpKey toStr sortF last rs hnone
    subst hnone
    induction rs generalizing last with
    | nil => rfl
    | cons r rest ih =>
      match last with
      | none =>
        simp only [enforceIterAll, checkerAdd]
        rw [ih (some r)]
        rfl
      | some lastRec =>
        simp only [enforceIterAll, checkerAdd]
        rw [ih (some r)]
        rfl
  · intro Rec Key cmpKey toStr f lastRec r
    constructor
    · intro h
      simp [checkerAdd, h]
    · intro h
      simp [checkerAdd, h]

/-- C7 witness: a concrete out-of-order pair errors with both records
named, an in-order pair passes, and `Unknown` mode passes everything. -/
theorem sort_order_checker_characterization_witness :
    checkerAdd (fun a b : Int => a - b) (fun n : Int => toString n)
        (some id) (some 2) 1 = .error ("Records out of order: " ++ "2" ++ " " ++ "1")
    ∧ checkerAdd (fun a b : Int => a - b) (fun n : Int => toString n)
        (some id) (some 1) 2 = .ok (some 2)
    ∧ enforceIterAll (fun a b : Int => a - b) (fun n : Int => toString n)
        none none [3, 1, 2] = .ok [3, 1, 2] := by
  refine ⟨?_, ?_, ?_⟩
  · exact ((sort_order_checker_characterization.2.2.2.2 Int Int
      (fun a b => a - b) (fun n => toString n) id 2 1).1 (by decide))
  · exact ((sort_order_checker_characterization.2.2.2.2 Int Int
      (fun a b => a - b) (fun n => toString n) id 1 2).2 (by decide))
  · exact (sort_order_checker_characterization.2.2.1 Int Int
      (fun a b => a - b) (fun n => toString n) none none [3, 1, 2] rfl)

/-! ### Allele overlap predicates (`maflib/overlap_iter.py` lines 148-185) -/

/-- `AlleleOverlapType.equality`: order-sensitive list equality. -/
def alleleEquality (base other : List String) : Bool :=
  base == other

/-- `AlleleOverlapType.intersects`:
`any(i in set(base) for i in other) or base == other`. -/
def alleleIntersects (base other : List String) : Bool :=
  other.any (fun i => decide (i ∈ base)) || base == other

/-- `AlleleOverlapType.subset`: `all(i in set(base) for i in other)`. -/
def alleleSubset (base other : List String) : Bool :=
  other.all (fun i => decide (i ∈ base))

/-- C4: `Equality` is order-sensitive list equality (so ["A","C"] vs
["C","A"] is False); `Intersects` holds iff the two lists share a member
or are identical (so [] vs [] is True); `Subset` holds iff every element
of `other` occurs in `base` (so ["A","C"] vs ["C"] is True). -/
theorem allele_predicates_characterization :
    (∀ a b, alleleEquality a b = true ↔ a = b)
    ∧ alleleEquality ["A", "C"] ["C", "A"] = false
    ∧ (∀ a b, alleleIntersects a b = true ↔ (∃ x, x ∈ a ∧ x ∈ b) ∨ a = b)
    ∧ alleleIntersects [] [] = true
    ∧ (∀ a b, alleleSubset a b = true ↔ ∀ x ∈ b, x ∈ a)
    ∧ alleleSubset ["A", "C"] ["C"] = true := by
  refine ⟨?_, by decide, ?_, by decide, ?_, by decide⟩
  · intro a b
    simp [alleleEquality]
  · intro a b
    simp only [alleleIntersects, Bool.or_eq_true, List.any_eq_true, decide_eq_true_eq,
      beq_iff_eq]
    constructor
    · rintro (⟨x, hxb, hxa⟩ | h)
      · exact Or.inl ⟨x, hxa, hxb⟩
      · exact Or.inr h
    · rintro (⟨x, hxa, hxb⟩ | h)
      · exact Or.inl ⟨x, hxb, hxa⟩
      · exact Or.inr h
  · intro a b
    simp [alleleSubset]

/-! ### Allele-aware overlap iterator (`maflib/overlap_iter.py` lines
188-260)

Records carry a reference allele and a list of alternate alleles
(`maflib/locatable.py`, `LocatableByAllele`).  `ref` is compared with
Python `==` on optional strings; `alts` is modelled as a present list
(a `None` alts would already be a `TypeError` inside `set(...)` in the
source predicates). -/

/-- A `LocatableByAllele` as used by the allele grouping code. -/
structure LocAllele where
  name : String
  ref : Option String
  alts : List String
  deriving DecidableEq, Repr

/-- `LocatableByAlleleOverlapIterator.__should_add` lines 217-221: true
iff some member of `items` has the same `ref` as `other` and relates to
it through the configured alternate-allele predicate. -/
def shouldAdd (cmpAlts : List String → List String → Bool)
    (items : List LocAllele) (other : LocAllele) : Bool :=
  items.any (fun item => item.ref == other.ref && cmpAlts item.alts other.alts)

/-- One step of the partition loop of `__next__` lines 233-242: append
`item` to the first group for which `__should_add` holds, else start a
new group at the end. -/
def insertAllele (cmpAlts : List String → List String → Bool) :
    List (List LocAllele) → LocAllele → List (List LocAllele)
  | [], item => [[item]]
  | g :: gs, item =>
    if shouldAdd cmpAlts g item then (g ++ [item]) :: gs
    else g :: insertAllele cmpAlts gs item

/-- The partition of the first input stream of a cluster (lines 230-242):
one linear pass over the records, growing one group list per unmatched
record. -/
def partitionAlleles (cmpAlts : List String → List String → Bool)
    (recs : List LocAllele) : List (List LocAllele) :=
  recs.foldl (insertAllele cmpAlts) []

/-- One buffered cluster of the base overlap iterator: the list from the
first input iterator and the lists from the remaining iterators. -/
structure AlleleCluster where
  first : List LocAllele
  others : List (List LocAllele)
  deriving DecidableEq, Repr

/-- The tuples that `LocatableByAlleleOverlapIterator.__next__` yields for
one buffered cluster (lines 223-260): clusters whose first list is empty
are skipped entirely (`while not iters[0]`); otherwise the first list is
partitioned and, per group, each other iterator's list is filtered by
`__should_add` against the group. -/
def byAlleleProcess (cmpAlts : List String → List String → Bool)
    (c : AlleleCluster) : List (List (List LocAllele)) :=
  if c.first = [] then []
  else
    (partitionAlleles cmpAlts c.first).map
      (fun items => items :: c.others.map (fun o => o.filter (fun item => shouldAdd cmpAlts items item)))

/-- All tuples yielded by `LocatableByAlleleOverlapIterator` when driven
to exhaustion over the given sequence of base clusters. -/
def byAlleleAll (cmpAlts : List String → List String → Bool)
    (clusters : List AlleleCluster) : List (List (List LocAllele)) :=
  clusters.flatMap (byAlleleProcess cmpAlts)

/-- Partition groups are never empty: a group is created as `[item]` and
only ever extended. -/
theorem partitionAlleles_groups_nonempty (cmpAlts : List String → List String → Bool)
    (recs : List LocAllele) :
    ∀ g ∈ partitionAlleles cmpAlts recs, g ≠ [] := by
  have main : ∀ (recs : List (LocAllele)) (acc : List (List LocAllele)),
      (∀ g ∈ acc, g ≠ []) → ∀ g ∈ recs.foldl (insertAllele cmpAlts) acc, g ≠ [] := by
    intro recs
    induction recs with
    | nil => intro acc hacc; simpa using hacc
    | cons r rest ih =>
      intro acc hacc
      simp only [List.foldl_cons]
      refine ih (insertAllele cmpAlts acc r) ?_
      clear ih
      induction acc with
      | nil =>
        intro g hg
        simp [insertAllele] at hg
        simp [hg]
      | cons g0 gs ihacc =>
        intro g hg
        simp only [insertAllele] at hg
        by_cases hsa : shouldAdd cmpAlts g0 r = true
        · rw [if_pos hsa] at hg
          rcases List.mem_cons.mp hg with h | h
          · subst h
            intro habs
            have := List.append_eq_nil.mp habs
            exact (hacc g0 (List.mem_cons_self _ _)) this.1
          · exact hacc g (List.mem_cons_of_mem _ h)
        · rw [if_neg hsa] at hg
          rcases List.mem_cons.mp hg with h | h
          · subst h
            exact hacc g (List.mem_cons_self _ _)
          · exact ihacc (fun g' hg' => hacc g' (List.mem_cons_of_mem _ hg')) g h
  exact main recs [] (by simp)

/-- The grouping rule as the specification words it ("same ref, and
predicate(group_representative.alts, item.alts) true"): a record joins a
group by comparing against the group representative (its first member)
only.  Written from the spec, for comparison with `shouldAdd`. -/
def specShouldAddRep (cmpAlts : List String → List String → Bool)
    (items : List LocAllele) (other : LocAllele) : Bool :=
  match items with
  | [] => false
  | rep :: _ => rep.ref == other.ref && cmpAlts rep.alts other.alts

/-- Partition step under the spec's representative-only rule. -/
def specInsertAlleleRep (cmpAlts : List String → List String → Bool) :
    List (List LocAllele) → LocAllele → List (List LocAllele)
  | [], item => [[item]]
  | g :: gs, item =>
    if specShouldAddRep cmpAlts g item then (g ++ [item]) :: gs
    else g :: specInsertAlleleRep cmpAlts gs item

/-- Partition under the spec's representative-only rule. -/
def specPartitionAllelesRep (cmpAlts : List String → List String → Bool)
    (recs : List LocAllele) : List (List LocAllele) :=
  recs.foldl (specInsertAlleleRep cmpAlts) []

/-- C8 counterexample: under `Intersects`, record r3 (alts [B]) joins the
group of r1 (alts [A]) because it intersects the later member r2
(alts [A,B]) even though the predicate fails against the group's
representative r1 — so the code's partition and the claimed
representative-based partition differ on [r1, r2, r3]. -/
theorem allele_grouping_not_by_representative_counterexample :
    partitionAlleles alleleIntersects
        [⟨"r1", some "R", ["A"]⟩, ⟨"r2", some "R", ["A", "B"]⟩, ⟨"r3", some "R", ["B"]⟩] =
      [[⟨"r1", some "R", ["A"]⟩, ⟨"r2", some "R", ["A", "B"]⟩, ⟨"r3", some "R", ["B"]⟩]]
    ∧ specPartitionAllelesRep alleleIntersects
        [⟨"r1", some "R", ["A"]⟩, ⟨"r2", some "R", ["A", "B"]⟩, ⟨"r3", some "R", ["B"]⟩] =
      [[⟨"r1", some "R", ["A"]⟩, ⟨"r2", some "R", ["A", "B"]⟩], [⟨"r3", some "R", ["B"]⟩]]
    ∧ alleleIntersects ["A"] ["B"] = false := by
  refine ⟨by decide, by decide, by decide⟩

/-- C8 amended: in the single linear partition pass, a record joins the
first existing group in which SOME MEMBER has the same ref and satisfies
the allele predicate against the record (not only the representative);
a record matching no group starts a new group at the end. -/
theorem allele_grouping_characterization :
    (∀ (f : List String → List String → Bool) (g : List LocAllele) (item : LocAllele),
      shouldAdd f g item = true ↔
        ∃ m ∈ g, (m.ref == item.ref) = true ∧ f m.alts item.alts = true)
    ∧ (∀ (f : List String → List String → Bool) (gs : List (List LocAllele))
        (item : LocAllele),
        (∀ g ∈ gs, shouldAdd f g item = false) →
          insertAllele f gs item = gs ++ [[item]])
    ∧ (∀ (f : List String → List String → Bool) (gs1 : List (List LocAllele))
        (g : List LocAllele) (gs2 : List (List LocAllele)) (item : LocAllele),
        (∀ g2 ∈ gs1, shouldAdd f g2 item = false) → shouldAdd f g item = true →
          insertAllele f (gs1 ++ g :: gs2) item = gs1 ++ (g ++ [item]) :: gs2)
    ∧ (∀ (f : List String → List String → Bool) (recs : List LocAllele),
        partitionAlleles f recs = recs.foldl (insertAllele f) []) := by
  refine ⟨?_, ?_, ?_, fun f recs => rfl⟩
  · intro f g item
    simp [shouldAdd, List.any_eq_true]
  · intro f gs item hnone
    induction gs with
    | nil => rfl
    | cons g0 rest ih =>
      have h0 : shouldAdd f g0 item = false := hnone g0 (List.mem_cons_self _ _)
      simp [insertAllele, h0, ih (fun g hg => hnone g (List.mem_cons_of_mem _ hg))]
  · intro f gs1 g gs2 item hnone hyes
    induction gs1 with
    | nil => simp [insertAllele, hyes]
    | cons g0 rest ih =>
      have h0 : shouldAdd f g0 item = false := hnone g0 (List.mem_cons_self _ _)
      simp [List.cons_append, insertAllele, h0,
        ih (fun g2 hg2 => hnone g2 (List.mem_cons_of_mem _ hg2))]

/-- C8 amended witness: on the counterexample records, r2 joins r1's group
(a member matches) and, when nothing matches, a new group is created. -/
theorem allele_grouping_characterization_witness :
    insertAllele alleleIntersects [[⟨"r1", some "R", ["A"]⟩]] ⟨"r3", some "R", ["B"]⟩ =
      [[⟨"r1", some "R", ["A"]⟩], [⟨"r3", some "R", ["B"]⟩]]
    ∧ insertAllele alleleIntersects
        [[⟨"r1", some "R", ["A"]⟩]] ⟨"r2", some "R", ["A", "B"]⟩ =
      [[⟨"r1", some "R", ["A"]⟩, ⟨"r2", some "R", ["A", "B"]⟩]] := by
  constructor
  · exact allele_grouping_characterization.2.1 alleleIntersects
      [[⟨"r1", some "R", ["A"]⟩]] ⟨"r3", some "R", ["B"]⟩ (by decide)
  · exact allele_grouping_characterization.2.2.1 alleleIntersects
      [] [⟨"r1", some "R", ["A"]⟩] [] ⟨"r2", some "R", ["A", "B"]⟩ (by decide) (by decide)

/-- C10: every tuple yielded by the by-allele iterator has a non-empty
first list, and base clusters whose first-stream list is empty are
discarded in their entirety — the yielded sequence equals the one
obtained after deleting those clusters, so records of the other streams
in such clusters are never yielded. -/
theorem by_allele_first_list_nonempty_and_empty_clusters_dropped :
    (∀ (f : List String → List String → Bool) (clusters : List AlleleCluster)
      (t : List (List LocAllele)), t ∈ byAlleleAll f clusters →
        ∃ g rest, t = g :: rest ∧ g ≠ [])
    ∧ (∀ (f : List String → List String → Bool) (clusters : List AlleleCluster),
        byAlleleAll f clusters =
          byAlleleAll f (clusters.filter (fun c => !c.first.isEmpty))) := by
  constructor
  · intro f clusters t ht
    rcases List.mem_flatMap.mp ht with ⟨c, _hc, htc⟩
    simp only [byAlleleProcess] at htc
    by_cases hfirst : c.first = []
    · rw [if_pos hfirst] at htc
      simp at htc
    · rw [if_neg hfirst] at htc
      rcases List.mem_map.mp htc with ⟨items, hitems, hteq⟩
      exact ⟨items, _, hteq.symm,
        partitionAlleles_groups_nonempty f c.first items hitems⟩
  · intro f clusters
    induction clusters with
    | nil => rfl
    | cons c rest ih =>
      by_cases hfirst : c.first = []
      · have hproc : byAlleleProcess f c = [] := by
          simp [byAlleleProcess, hfirst]
        simp [byAlleleAll, List.filter_cons, hfirst, hproc] at ih ⊢
        exact ih
      · have hne : (!c.first.isEmpty) = true := by
          simp [List.isEmpty_iff, hfirst]
        simp only [byAlleleAll, List.filter_cons, hne, if_pos, List.flatMap_cons] at ih ⊢
        rw [ih]

/-- C10 witness: a cluster with an empty first list but a record in the
second stream yields nothing at all, and the tuple yielded for a
singleton cluster has a non-empty first list. -/
theorem by_allele_first_list_nonempty_witness :
    byAlleleAll alleleEquality [⟨[], [[⟨"x", some "R", ["A"]⟩]]⟩] = []
    ∧ ∃ g rest,
        ([⟨"y", some "R", ["A"]⟩] :: ([[⟨"z", some "R", ["A"]⟩]] : List (List LocAllele)))
          = g :: rest ∧ g ≠ [] := by
  constructor
  · have := (by_allele_first_list_nonempty_and_empty_clusters_dropped).2
      alleleEquality [⟨[], [[⟨"x", some "R", ["A"]⟩]]⟩]
    simpa using this
  · exact (by_allele_first_list_nonempty_and_empty_clusters_dropped).1
      alleleEquality [⟨[⟨"y", some "R", ["A"]⟩], [[⟨"z", some "R", ["A"]⟩]]⟩]
      ([⟨"y", some "R", ["A"]⟩] :: [[⟨"z", some "R", ["A"]⟩]]) (by decide)

/-! ### Locatable overlap iterator (`maflib/overlap_iter.py` lines 20-145)

The claims exercise the `by_barcodes=False` path with no FASTA index, so
the sort key of a record keeps its raw chromosome value (see the C9
theorem); keys are `CoordKey String`.  Python comparisons `<`/`<=` on the
key's start/end fields would raise `TypeError` on `None`; those arms
(unreachable for records with present coordinates) are modelled as
`false`.  The input streams are assumed already sorted, on which the
enclosed `_SortOrderEnforcingIterator` is the identity. -/

/-- `Coordinate().sort_key()` with no contig list: the raw record fields. -/
def rawCoordKey (r : PyLoc) : CoordKey String :=
  ⟨r.chromosome, r.start, r.end_⟩

/-- Python `<` on two optional ints (TypeError arms modelled as false). -/
def pyLtOptInt : Option Int → Option Int → Bool
  | some a, some b => decide (a < b)
  | _, _ => false

/-- Python `<=` on two optional ints (TypeError arms modelled as false). -/
def pyLeOptInt : Option Int → Option Int → Bool
  | some a, some b => decide (a ≤ b)
  | _, _ => false

/-- `min_key.end` update of lines 140-141:
`if min_key.end < keys[i].end: min_key.end = keys[i].end`. -/
def pyMaxEnd (e1 e2 : Option Int) : Option Int :=
  if pyLtOptInt e1 e2 then e2 else e1

/-- `LocatableOverlapIterator.__overlaps` lines 92-99: same chromosome
(Python `==`, where `None == None` is true) and
`min_key.start <= cur_key.start <= min_key.end`. -/
def overlapsCoord (min_key cur_key : CoordKey String) : Bool :=
  (min_key.chromosome == cur_key.chromosome)
    && pyLeOptInt min_key.start cur_key.start
    && pyLeOptInt cur_key.start min_key.end_

/-- `LocatableOverlapIterator.__overlaps_with_barcode` lines 84-90: equal
tumor and matched normal barcodes, and coordinate overlap. -/
def overlapsWithBarcode (min_key cur_key : BarcodesCoordKey String) : Bool :=
  (min_key.tumor_barcode == cur_key.tumor_barcode)
    && (min_key.normal_barcode == cur_key.normal_barcode)
    && overlapsCoord min_key.coord cur_key.coord

/-- Per-input-iterator state inside one `__next__` call: the unconsumed
records of the peekable iterator, the cached `keys[i]` entry, and the
records collected into `records[i]` so far. -/
structure OverlapCursor where
  remaining : List PyLoc
  key : Option (CoordKey String)
  collected : List PyLoc
  deriving DecidableEq, Repr

/-- The body of the `for i, _iter` loop of lines 127-143 for one cursor:
peek the head record; compute `keys[i]` if not cached; if it overlaps
`min_key`, consume the record, append it to `records[i]`, raise
`min_key.end` and clear `keys[i]`, reporting progress. -/
def stepIter (min_key : CoordKey String) (p : OverlapCursor) :
    OverlapCursor × CoordKey String × Bool :=
  match p.remaining with
  | [] => (p, min_key, false)
  | rec :: rem =>
    let k := p.key.getD (rawCoordKey rec)
    if overlapsCoord min_key k then
      (⟨rem, none, p.collected ++ [rec]⟩,
        { min_key with end_ := pyMaxEnd min_key.end_ k.end_ },
        true)
    else
      (⟨rec :: rem, some k, p.collected⟩, min_key, false)

/-- One full pass over the cursors (one iteration of the `while added`
loop), threading the mutable `min_key` left to right. -/
def sweepCursors (min_key : CoordKey String) :
    List OverlapCursor → List OverlapCursor × CoordKey String × Bool
  | [] => ([], min_key, false)
  | p :: rest =>
    let s1 := stepIter min_key p
    let s2 := sweepCursors s1.2.1 rest
    (s1.1 :: s2.1, s2.2.1, s1.2.2 || s2.2.2)

/-- The `while added` fixed-point loop of lines 123-143.  `fuel` bounds
the number of passes; every pass that continues has consumed at least one
record, so `total records + 1` passes always suffice. -/
def expandLoop : Nat → CoordKey String → List OverlapCursor →
    List OverlapCursor × CoordKey String
  | 0, min_key, ps => (ps, min_key)
  | fuel + 1, min_key, ps =>
    let s := sweepCursors min_key ps
    if s.2.2 then expandLoop fuel s.2.1 s.1 else (s.1, s.2.1)

/-- Python `min` over a non-empty list of keys compared with `__lt__`
(`__cmp__ < 0`), keeping the earliest minimum among ties. -/
def pyMinKeys : List (CoordKey String) → Option (CoordKey String)
  | [] => none
  | k :: rest =>
    some (rest.foldl (fun m k2 => if coordCmp k2 m < 0 then k2 else m) k)

/-- `LocatableOverlapIterator.__next__` lines 111-145 over the remaining
streams: `none` models the `StopIteration` when every input is exhausted;
otherwise the lists of consumed records (one per input) and the updated
streams. -/
def overlapNext (streams : List (List PyLoc)) :
    Option (List (List PyLoc) × List (List PyLoc)) :=
  let keys := streams.map (fun s => s.head?.map rawCoordKey)
  match pyMinKeys (keys.filterMap id) with
  | none => none
  | some min_key =>
    let cursors := streams.map (fun s => ⟨s, s.head?.map rawCoordKey, []⟩)
    let res := expandLoop ((streams.map List.length).sum + 1) min_key cursors
    some (res.1.map OverlapCursor.collected, res.1.map OverlapCursor.remaining)

/-- Driving the overlap iterator to exhaustion, collecting every cluster
(list of per-input record lists) it returns. -/
def overlapAllClusters : Nat → List (List PyLoc) → List (List (List PyLoc))
  | 0, _ => []
  | fuel + 1, streams =>
    match overlapNext streams with
    | none => []
    | some (cluster, streams2) => cluster :: overlapAllClusters fuel streams2

/-- C3: a cursor's head is consumed exactly when its key has the same
chromosome as `min_key` and `min_key.start <= key.start <= min_key.end`,
each consumption raises `min_key.end` to the maximum of itself and the
consumed key's end, and a non-overlapping head leaves the cursor intact;
consequently the single sorted stream [(A,1,1), (A,110,200), (A,150,250)]
yields exactly the two clusters [(A,1,1)] and
[(A,110,200), (A,150,250)]. -/
theorem overlap_window_expansion_fixed_point :
    (∀ (min_key : CoordKey String) (p : OverlapCursor) (rec : PyLoc)
      (rem : List PyLoc), p.remaining = rec :: rem →
      (overlapsCoord min_key (p.key.getD (rawCoordKey rec)) = true →
        stepIter min_key p =
          (⟨rem, none, p.collected ++ [rec]⟩,
            { min_key with
                end_ := pyMaxEnd min_key.end_ (p.key.getD (rawCoordKey rec)).end_ },
            true))
      ∧ (overlapsCoord min_key (p.key.getD (rawCoordKey rec)) = false →
        stepIter min_key p =
          (⟨rec :: rem, some (p.key.getD (rawCoordKey rec)), p.collected⟩,
            min_key, false)))
    ∧ (∀ (min_key cur_key : CoordKey String),
        overlapsCoord min_key cur_key = true ↔
          (min_key.chromosome == cur_key.chromosome) = true
          ∧ pyLeOptInt min_key.start cur_key.start = true
          ∧ pyLeOptInt cur_key.start min_key.end_ = true)
    ∧ (∀ min_key cur_key : BarcodesCoordKey String,
        overlapsWithBarcode min_key cur_key = true ↔
          (min_key.tumor_barcode == cur_key.tumor_barcode) = true
          ∧ (min_key.normal_barcode == cur_key.normal_barcode) = true
          ∧ overlapsCoord min_key.coord cur_key.coord = true)
    ∧ (∀ a b : Int, pyMaxEnd (some a) (some b) = some (max a b))
    ∧ overlapAllClusters 4
        [[⟨some "A", some 1, some 1⟩, ⟨some "A", some 110, some 200⟩,
          ⟨some "A", some 150, some 250⟩]] =
      [[[⟨some "A", some 1, some 1⟩]],
       [[⟨some "A", some 110, some 200⟩, ⟨some "A", some 150, some 250⟩]]] := by
  refine ⟨?_, ?_, ?_, ?_, by decide⟩
  · intro min_key p rec rem hrem
    constructor
    · intro hov
      simp [stepIter, hrem, hov]
    · intro hov
      simp [stepIter, hrem, hov]
  · intro min_key cur_key
    simp [overlapsCoord, and_assoc]
  · intro min_key cur_key
    simp [overlapsWithBarcode, and_assoc]
  · intro a b
    by_cases h : a < b
    · simp [pyMaxEnd, pyLtOptInt, h, max_eq_right (le_of_lt h)]
    · simp [pyMaxEnd, pyLtOptInt, h, max_eq_left (not_lt.mp h)]

/-- C3 witness: the consumption/skip characterization applied to the
first head of the example stream. -/
theorem overlap_window_expansion_fixed_point_witness :
    stepIter ⟨some "A", some 1, some 1⟩
        ⟨[⟨some "A", some 1, some 1⟩, ⟨some "A", some 110, some 200⟩], none, []⟩ =
      (⟨[⟨some "A", some 110, some 200⟩], none, [⟨some "A", some 1, some 1⟩]⟩,
        ⟨some "A", some 1, some 1⟩, true)
    ∧ stepIter ⟨some "A", some 1, some 1⟩
        ⟨[⟨some "A", some 110, some 200⟩], none, []⟩ =
      (⟨[⟨some "A", some 110, some 200⟩], some ⟨some "A", some 110, some 200⟩, []⟩,
        ⟨some "A", some 1, some 1⟩, false) := by
  constructor
  · exact ((overlap_window_expansion_fixed_point.1 ⟨some "A", some 1, some 1⟩
      ⟨[⟨some "A", some 1, some 1⟩, ⟨some "A", some 110, some 200⟩], none, []⟩
      ⟨some "A", some 1, some 1⟩ [⟨some "A", some 110, some 200⟩] rfl).1 (by decide))
  · exact ((overlap_window_expansion_fixed_point.1 ⟨some "A", some 1, some 1⟩
      ⟨[⟨some "A", some 110, some 200⟩], none, []⟩
      ⟨some "A", some 110, some 200⟩ [] rfl).2 (by decide))

/-! ### Sorter cleanup (`maflib/sorter.py` lines 309-317)

`Sorter.close` walks `zip(self._paths, self._fds)` calling `os.close` and
`os.remove`, swallowing only `ENOENT`.  The operating system is modelled
by the set of open file descriptors and existing paths; `os.close` of a
descriptor that is not open fails with `EBADF` (errno 9), `os.remove` of
a missing path with `ENOENT` (errno 2). -/

/-- errno ENOENT. -/
def ENOENT : Nat := 2

/-- errno EBADF. -/
def EBADF : Nat := 9

/-- The file-system state visible to `Sorter.close`. -/
structure OSState where
  openFds : List Nat
  existingPaths : List String
  deriving DecidableEq, Repr

/-- `os.close`. -/
def osClose (st : OSState) (fd : Nat) : Except Nat OSState :=
  if fd ∈ st.openFds then .ok { st with openFds := st.openFds.erase fd }
  else .error EBADF

/-- `os.remove`. -/
def osRemove (st : OSState) (path : String) : Except Nat OSState :=
  if path ∈ st.existingPaths then
    .ok { st with existingPaths := st.existingPaths.erase path }
  else .error ENOENT

/-- One iteration of the cleanup loop: `try: os.close(desc);
os.remove(path) except OSError as e: if e.errno != errno.ENOENT: raise`. -/
def closeStep (st : OSState) (path : String) (fd : Nat) : Except Nat OSState :=
  match osClose st fd with
  | .error e => if e ≠ ENOENT then .error e else .ok st
  | .ok st1 =>
    match osRemove st1 path with
    | .error e => if e ≠ ENOENT then .error e else .ok st1
    | .ok st2 => .ok st2

/-- `Sorter.close`: the loop over `zip(self._paths, self._fds)`; an
unswallowed error propagates out of the loop at once. -/
def sorterClose (st : OSState) : List (String × Nat) → Except Nat OSState
  | [] => .ok st
  | (path, fd) :: rest =>
    match closeStep st path fd with
    | .error e => .error e
    | .ok st2 => sorterClose st2 rest

/-- C5 counterexample: one spill file, its path existing and its mkstemp
descriptor open.  The first `close()` succeeds and removes the file, but
the second `close()` raises `EBADF` from `os.close` on the already-closed
descriptor — `EBADF` is not the swallowed `ENOENT` — so a second
`close()` is not error-free as claimed. -/
theorem sorter_close_second_call_raises_counterexample :
    sorterClose ⟨[5], ["tmp1"]⟩ [("tmp1", 5)] = .ok ⟨[], []⟩
    ∧ sorterClose ⟨[], []⟩ [("tmp1", 5)] = .error EBADF
    ∧ EBADF ≠ ENOENT := by
  refine ⟨rfl, rfl, by decide⟩

/-- Helper for C5: on a state where the spill descriptors are open and
distinct and the file system has no duplicate paths, the cleanup loop
succeeds and removes every listed path, only ever shrinking the set of
existing paths. -/
theorem sorterClose_removes_all (entries : List (String × Nat)) :
    ∀ st : OSState, (entries.map Prod.snd).Nodup →
    (∀ fd ∈ entries.map Prod.snd, fd ∈ st.openFds) →
    st.existingPaths.Nodup →
    ∃ st2, sorterClose st entries = .ok st2
      ∧ (∀ p ∈ entries.map Prod.fst, p ∉ st2.existingPaths)
      ∧ st2.existingPaths ⊆ st.existingPaths
      ∧ st2.existingPaths.Nodup := by
  induction entries with
  | nil =>
    intro st _ _ hnd
    exact ⟨st, rfl, by simp, fun a ha => ha, hnd⟩
  | cons e rest ih =>
    intro st hnodup hopen hnd
    obtain ⟨path, fd⟩ := e
    have hfd : fd ∈ st.openFds := hopen fd (by simp)
    have hstep : ∃ st1, closeStep st path fd = .ok st1
        ∧ st1.openFds = st.openFds.erase fd
        ∧ path ∉ st1.existingPaths
        ∧ st1.existingPaths ⊆ st.existingPaths
        ∧ st1.existingPaths.Nodup := by
      by_cases hp : path ∈ st.existingPaths
      · refine ⟨⟨st.openFds.erase fd, st.existingPaths.erase path⟩, ?_, rfl, ?_, ?_, ?_⟩
        · simp [closeStep, osClose, hfd, osRemove, hp]
        · exact hnd.not_mem_erase
        · exact fun q hq => List.mem_of_mem_erase hq
        · exact hnd.erase path
      · refine ⟨⟨st.openFds.erase fd, st.existingPaths⟩, ?_, rfl, hp, fun q hq => hq, hnd⟩
        simp [closeStep, osClose, hfd, osRemove, hp, ENOENT]
    obtain ⟨st1, hstep, hfds, hpath, hsub1, hnd1⟩ := hstep
    have hnodup2 : (rest.map Prod.snd).Nodup :=
      (List.nodup_cons.mp (by simpa using hnodup)).2
    have hopen2 : ∀ g ∈ rest.map Prod.snd, g ∈ st1.openFds := by
      intro g hg
      rw [hfds]
      refine (List.mem_erase_of_ne ?_).mpr (hopen g (by simp [hg]))
      intro hgfd
      exact (List.nodup_cons.mp (by simpa using hnodup)).1 (hgfd ▸ hg)
    obtain ⟨st2, hrest, hout, hsub2, hnd2⟩ := ih st1 hnodup2 hopen2 hnd1
    refine ⟨st2, ?_, ?_, fun q hq => hsub1 (hsub2 hq), hnd2⟩
    · simp [sorterClose, hstep, hrest]
    · intro p hp
      rcases (by simpa using hp : p = path ∨ ∃ x, (p, x) ∈ rest) with h | ⟨x, hx⟩
      · subst h
        exact fun hmem => hpath (hsub2 hmem)
      · exact hout p (List.mem_map.mpr ⟨(p, x), hx, rfl⟩)

/-- C5 amended: `close()` removes every spill file and, when no spill
occurred (no recorded paths), never raises; during cleanup only the
`ENOENT` ("already removed") error is swallowed and any other OS error
propagates — in particular a second `close()` after a spill raises
`EBADF` from re-closing the spill file descriptor, so a second `close()`
is not error-free. -/
theorem sorter_close_cleanup_behavior :
    (∀ st : OSState, sorterClose st [] = .ok st)
    ∧ (∀ (st : OSState) (entries : List (String × Nat)),
        (entries.map Prod.snd).Nodup →
        (∀ fd ∈ entries.map Prod.snd, fd ∈ st.openFds) →
        st.existingPaths.Nodup →
        ∃ st2, sorterClose st entries = .ok st2
          ∧ ∀ p ∈ entries.map Prod.fst, p ∉ st2.existingPaths)
    ∧ (∀ (st : OSState) (path : String) (fd : Nat) (rest : List (String × Nat)),
        fd ∉ st.openFds →
        sorterClose st ((path, fd) :: rest) = .error EBADF) := by
  refine ⟨fun st => rfl, ?_, ?_⟩
  · intro st entries hnodup hopen hnd
    obtain ⟨st2, hok, hout, _, _⟩ := sorterClose_removes_all entries st hnodup hopen hnd
    exact ⟨st2, hok, hout⟩
  · intro st path fd rest hfd
    simp [sorterClose, closeStep, osClose, hfd, EBADF, ENOENT]

/-- C5 witness: one spill file is removed by the first `close()`, an
empty run raises nothing, and a second `close()` raises `EBADF`. -/
theorem sorter_close_cleanup_behavior_witness :
    (∃ st2, sorterClose ⟨[5], ["tmp1"]⟩ [("tmp1", 5)] = .ok st2
      ∧ ∀ p ∈ [("tmp1", 5)].map Prod.fst, p ∉ st2.existingPaths)
    ∧ sorterClose ⟨[], []⟩ [] = .ok ⟨[], []⟩
    ∧ sorterClose ⟨[], []⟩ [("tmp1", 5)] = .error EBADF := by
  refine ⟨?_, ?_, ?_⟩
  · exact sorter_close_cleanup_behavior.2.1 ⟨[5], ["tmp1"]⟩ [("tmp1", 5)]
      (by decide) (by decide) (by decide)
  · exact sorter_close_cleanup_behavior.1 ⟨[], []⟩
  · exact sorter_close_cleanup_behavior.2.2 ⟨[], []⟩ "tmp1" 5 [] (by decide)

/-! ### CPython heapq model (`heapq.heappush` / `heapq.heappop`)

`Sorter.__iter__` merges spill files through the standard library heapq,
whose `_siftdown` (bubble-up) and `_siftup` (Floyd sift-down to a leaf
followed by bubble-up) are modelled verbatim below on lists.  The element
being placed (`newitem`) is threaded as an argument: CPython stores it in
the vacant slot and overwrites that slot before ever reading it, so the
observable reads and writes coincide.  The bubble-up loop strictly
decreases `pos`, so `pos` itself is sufficient fuel; the sift-down loop
strictly increases `pos` below `len(heap)`, so `len(heap)` is sufficient
fuel.  Every entry point below passes exactly those fuels. -/

/-- `heapq._siftdown(heap, startpos, pos)` with `newitem = heap[pos]`:
move parents greater than `newitem` down until the spot for `newitem` is
found. -/
def siftdownGo {I : Type} (lt : I → I → Bool) (x : I) (startpos : Nat) :
    Nat → List I → Nat → List I
  | 0, l, pos => l.set pos x
  | fuel + 1, l, pos =>
    if startpos < pos then
      let parentpos := (pos - 1) / 2
      let parent := l.getD parentpos x
      if lt x parent then siftdownGo lt x startpos fuel (l.set pos parent) parentpos
      else l.set pos x
    else l.set pos x

/-- `heapq._siftdown` at its natural fuel. -/
def siftdown {I : Type} (lt : I → I → Bool) (x : I) (startpos : Nat)
    (l : List I) (pos : Nat) : List I :=
  siftdownGo lt x startpos pos l pos

/-- `heapq._siftup(heap, pos)` with `newitem = heap[pos]`: move the
smaller child up until reaching a leaf, then bubble the new item up. -/
def siftupGo {I : Type} (lt : I → I → Bool) (x : I) (startpos : Nat) :
    Nat → List I → Nat → List I
  | 0, l, pos => siftdown lt x startpos l pos
  | fuel + 1, l, pos =>
    let endpos := l.length
    let childpos := 2 * pos + 1
    if childpos < endpos then
      let rightpos := childpos + 1
      let c :=
        if rightpos < endpos ∧ lt (l.getD childpos x) (l.getD rightpos x) = false then rightpos
        else childpos
      siftupGo lt x startpos fuel (l.set pos (l.getD c x)) c
    else siftdown lt x startpos l pos

/-- `heapq.heappush(heap, item)`: append then bubble up from the last
position. -/
def heappush {I : Type} (lt : I → I → Bool) (l : List I) (item : I) : List I :=
  siftdown lt item 0 (l ++ [item]) l.length

/-- `heapq.heappop(heap)`: pop the last element; if the heap is still
non-empty return its root, move the last element to the root and sift it
down (`_siftup(heap, 0)`). -/
def heappop {I : Type} (lt : I → I → Bool) (l : List I) : Option (I × List I) :=
  match l.getLast? with
  | none => none
  | some lastelt =>
    let rest := l.dropLast
    match rest.head? with
    | none => some (lastelt, [])
    | some returnitem =>
      some (returnitem, siftupGo lt lastelt 0 rest.length (rest.set 0 lastelt) 0)

theorem siftdownGo_length {I : Type} (lt : I → I → Bool) (x : I) (startpos : Nat) :
    ∀ (fuel : Nat) (l : List I) (pos : Nat),
      (siftdownGo lt x startpos fuel l pos).length = l.length := by
  intro fuel
  induction fuel with
  | zero => intro l pos; simp [siftdownGo]
  | succ fuel ih =>
    intro l pos
    simp only [siftdownGo]
    split
    · split
      · rw [ih]
        simp
      · simp
    · simp

theorem siftupGo_length {I : Type} (lt : I → I → Bool) (x : I) (startpos : Nat) :
    ∀ (fuel : Nat) (l : List I) (pos : Nat),
      (siftupGo lt x startpos fuel l pos).length = l.length := by
  intro fuel
  induction fuel with
  | zero => intro l pos; simp [siftupGo, siftdown, siftdownGo_length]
  | succ fuel ih =>
    intro l pos
    simp only [siftupGo]
    split
    · rw [ih]
      simp
    · simp [siftdown, siftdownGo_length]

theorem multiset_set_exchange {I : Type} :
    ∀ (l : List I) (j : Nat) (v a : I), l[j]? = some a →
      (↑(l.set j v) : Multiset I) + {a} = (↑l : Multiset I) + {v} := by
  intro l
  induction l with
  | nil => intro j v a h; simp at h
  | cons b t ih =>
    intro j v a h
    match j with
    | 0 =>
      simp at h
      subst h
      simp only [List.set]
      rw [← Multiset.cons_coe, ← Multiset.cons_coe]
      rw [← Multiset.singleton_add, ← Multiset.singleton_add]
      abel
    | j + 1 =>
      simp only [List.getElem?_cons_succ] at h
      simp only [List.set]
      rw [← Multiset.cons_coe, ← Multiset.cons_coe]
      rw [← Multiset.singleton_add, ← Multiset.singleton_add]
      have := ih j v a h
      calc {b} + (↑(t.set j v) : Multiset I) + {a}
          = {b} + ((↑(t.set j v) : Multiset I) + {a}) := by abel
        _ = {b} + ((↑t : Multiset I) + {v}) := by rw [this]
        _ = {b} + (↑t : Multiset I) + {v} := by abel

/-- Writing `x` at `pos` and the value read from `q` at `pos` commute at
the multiset level: the write at `q` discards the copy again. -/
theorem multiset_set_set {I : Type} (l : List I) (pos q : Nat) (v x : I)
    (hpos : pos < l.length) (hq : l[q]? = some v) (hne : q ≠ pos) :
    (↑((l.set pos v).set q x) : Multiset I) = (↑(l.set pos x) : Multiset I) := by
  have h1 : (l.set pos v)[q]? = some v := by
    rw [List.getElem?_set]
    simp [hne.symm, hq]
  have e1 := multiset_set_exchange (l.set pos v) q x v h1
  have e2 := multiset_set_exchange l pos v l[pos] (List.getElem?_eq_getElem hpos)
  have e3 := multiset_set_exchange l pos x l[pos] (List.getElem?_eq_getElem hpos)
  have : (↑((l.set pos v).set q x) : Multiset I) + {v} + {l[pos]}
      = (↑(l.set pos x) : Multiset I) + {v} + {l[pos]} := by
    calc (↑((l.set pos v).set q x) : Multiset I) + {v} + {l[pos]}
        = (↑(l.set pos v) : Multiset I) + {x} + {l[pos]} := by rw [e1]
      _ = (↑(l.set pos v) : Multiset I) + {l[pos]} + {x} := by abel
      _ = (↑l : Multiset I) + {v} + {x} := by rw [e2]
      _ = (↑l : Multiset I) + {x} + {v} := by abel
      _ = (↑(l.set pos x) : Multiset I) + {l[pos]} + {v} := by rw [e3]
      _ = (↑(l.set pos x) : Multiset I) + {v} + {l[pos]} := by abel
  exact add_right_cancel (add_right_cancel this)

theorem siftdownGo_multiset {I : Type} (lt : I → I → Bool) (x : I) :
    ∀ (fuel : Nat) (l : List I) (pos : Nat), pos < l.length →
      (↑(siftdownGo lt x 0 fuel l pos) : Multiset I) = (↑(l.set pos x) : Multiset I) := by
  intro fuel
  induction fuel with
  | zero => intro l pos _; simp [siftdownGo]
  | succ fuel ih =>
    intro l pos hpos
    simp only [siftdownGo]
    split
    · rename_i hz
      split
      · rename_i hlt
        have hpp : (pos - 1) / 2 < pos := by omega
        have hgd : l.getD ((pos - 1) / 2) x = l[(pos - 1) / 2] := by
          rw [List.getD_eq_getElem?_getD, List.getElem?_eq_getElem (by omega)]
          rfl
        rw [hgd] at *
        rw [ih (l.set pos l[(pos - 1) / 2]) ((pos - 1) / 2) (by simp; omega)]
        exact multiset_set_set l pos ((pos - 1) / 2) l[(pos - 1) / 2] x hpos
          (List.getElem?_eq_getElem (by omega)) (by omega)
      · rfl
    · rfl

theorem siftupGo_multiset {I : Type} (lt : I → I → Bool) (x : I) :
    ∀ (fuel : Nat) (l : List I) (pos : Nat), pos < l.length →
      (↑(siftupGo lt x 0 fuel l pos) : Multiset I) = (↑(l.set pos x) : Multiset I) := by
  intro fuel
  induction fuel with
  | zero => intro l pos hpos; simp only [siftupGo, siftdown]; exact siftdownGo_multiset lt x pos l pos hpos
  | succ fuel ih =>
    intro l pos hpos
    simp only [siftupGo]
    split
    · rename_i hchild
      set c := if 2 * pos + 1 + 1 < l.length ∧ lt (l.getD (2 * pos + 1) x) (l.getD (2 * pos + 1 + 1) x) = false then 2 * pos + 1 + 1
        else 2 * pos + 1 with hc
      have hcbound : c < l.length := by
        rw [hc]
        split
        · rename_i hcond
          exact hcond.1
        · exact hchild
      have hcne : c ≠ pos := by
        have : 2 * pos + 1 ≤ c := by
          rw [hc]; split <;> omega
        omega
      have hgd : l.getD c x = l[c] := by
        rw [List.getD_eq_getElem?_getD, List.getElem?_eq_getElem hcbound]
        rfl
      rw [hgd]
      rw [ih (l.set pos l[c]) c (by simpa using hcbound)]
      exact multiset_set_set l pos c l[c] x hpos (List.getElem?_eq_getElem hcbound) hcne
    · simp only [siftdown]
      exact siftdownGo_multiset lt x pos l pos hpos

theorem heappush_multiset {I : Type} (lt : I → I → Bool) (l : List I) (item : I) :
    (↑(heappush lt l item) : Multiset I) = item ::ₘ (↑l : Multiset I) := by
  simp only [heappush, siftdown]
  rw [siftdownGo_multiset lt item l.length (l ++ [item]) l.length (by simp)]
  have : (l ++ [item]).set l.length item = l ++ [item] := by
    apply List.ext_getElem?
    intro n
    rw [List.getElem?_set]
    split
    · rename_i h
      subst h
      simp
    · rfl
  rw [this, ← Multiset.coe_add]
  have : (↑[item] : Multiset I) = {item} := rfl
  rw [this, ← Multiset.singleton_add]
  abel

theorem heappush_length {I : Type} (lt : I → I → Bool) (l : List I) (item : I) :
    (heappush lt l item).length = l.length + 1 := by
  simp [heappush, siftdown, siftdownGo_length]

theorem heappop_none_iff {I : Type} (lt : I → I → Bool) (l : List I) :
    heappop lt l = none ↔ l = [] := by
  constructor
  · intro h
    by_contra hne
    have : l.getLast? ≠ none := fun hnone =>
      hne (List.getLast?_eq_none_iff.mp hnone)
    match hl : l.getLast? with
    | none => exact this hl
    | some lastelt =>
      simp only [heappop, hl] at h
      match hr : l.dropLast.head? with
      | none => simp [hr] at h
      | some r => simp [hr] at h
  · intro h
    subst h
    rfl

theorem heappop_root_eq {I : Type} (lt : I → I → Bool) (l : List I) (r : I) (l2 : List I)
    (h : heappop lt l = some (r, l2)) : l[0]? = some r := by
  match hl : l.getLast? with
  | none => simp [heappop, hl] at h
  | some lastelt =>
    simp only [heappop, hl] at h
    match hr : l.dropLast.head? with
    | none =>
      simp only [hr, Option.some.injEq, Prod.mk.injEq] at h
      have hlen : l.dropLast = [] := List.head?_eq_none_iff.mp hr
      have : l.length ≤ 1 := by
        have := congrArg List.length (List.dropLast_eq_take l)
        simp [hlen] at this
        omega
      match l, hl with
      | [a], hl =>
        simp at hl
        simp [hl, ← h.1]
      | [], hl => simp at hl
    | some returnitem =>
      simp only [hr, Option.some.injEq, Prod.mk.injEq] at h
      have h0 : l.dropLast[0]? = some returnitem := by
        rw [← List.head?_eq_getElem?]
        exact hr
      rw [List.getElem?_dropLast] at h0
      split at h0
      · rw [← h.1]
        exact h0
      · simp at h0

theorem heappop_multiset {I : Type} (lt : I → I → Bool) (l : List I) (r : I) (l2 : List I)
    (h : heappop lt l = some (r, l2)) : (↑l : Multiset I) = r ::ₘ (↑l2 : Multiset I) := by
  match hl : l.getLast? with
  | none => simp [heappop, hl] at h
  | some lastelt =>
    have hsplit : l.dropLast ++ [lastelt] = l := List.dropLast_append_getLast? lastelt hl
    simp only [heappop, hl] at h
    match hr : l.dropLast.head? with
    | none =>
      simp only [hr, Option.some.injEq, Prod.mk.injEq] at h
      have hlen : l.dropLast = [] := List.head?_eq_none_iff.mp hr
      rw [hlen] at hsplit
      rw [← hsplit, ← h.1, ← h.2]
      rfl
    | some returnitem =>
      simp only [hr, Option.some.injEq, Prod.mk.injEq] at h
      have hne : l.dropLast ≠ [] := by
        intro habs
        rw [habs] at hr
        simp at hr
      have hlenpos : 0 < l.dropLast.length := List.length_pos.mpr hne
      have h0 : l.dropLast[0]? = some returnitem := by
        rw [← List.head?_eq_getElem?]
        exact hr
      have hml2 : (↑l2 : Multiset I) = (↑(l.dropLast.set 0 lastelt) : Multiset I) := by
        rw [← h.2]
        rw [siftupGo_multiset lt lastelt l.dropLast.length (l.dropLast.set 0 lastelt) 0
          (by simpa using hlenpos)]
        rw [List.set_set]
      have hex := multiset_set_exchange l.dropLast 0 lastelt returnitem h0
      have : (↑l : Multiset I) = (↑l.dropLast : Multiset I) + {lastelt} := by
        conv_lhs => rw [← hsplit]
        rw [← Multiset.coe_add]
        rfl
      rw [this, ← h.1, hml2]
      rw [← Multiset.singleton_add]
      calc (↑l.dropLast : Multiset I) + {lastelt}
          = (↑(l.dropLast.set 0 lastelt) : Multiset I) + {returnitem} := hex.symm
        _ = {returnitem} + (↑(l.dropLast.set 0 lastelt) : Multiset I) := by abel

/-- Index of the parent of heap node `j`. -/
def parentIdx (j : Nat) : Nat := (j - 1) / 2

/-- The binary-heap invariant: no node compares strictly less than its
parent. -/
def IsHeap {I : Type} (lt : I → I → Bool) (l : List I) : Prop :=
  ∀ j, 0 < j → ∀ a b, l[j]? = some a → l[parentIdx j]? = some b → lt a b = false

/-- The properties of the comparison `heapq` relies on; they hold for any
strict order derived from a linear order on keys. -/
structure LtSWO {I : Type} (lt : I → I → Bool) : Prop where
  irr : ∀ a, lt a a = false
  trans_neg : ∀ a b c, lt a b = false → lt b c = false → lt a c = false
  neg_pos : ∀ a b c, lt a b = false → lt c b = true → lt a c = false

theorem LtSWO.asymm {I : Type} {lt : I → I → Bool} (h : LtSWO lt) {a b : I}
    (hab : lt a b = true) : lt b a = false :=
  h.neg_pos b b a (h.irr b) hab

/-- In a heap, the root is minimal: no element compares strictly less
than it. -/
theorem isHeap_root_min {I : Type} {lt : I → I → Bool} (hswo : LtSWO lt)
    {l : List I} (hheap : IsHeap lt l) :
    ∀ (j : Nat) (a r : I), l[j]? = some a → l[0]? = some r → lt a r = false := by
  intro j
  induction j using Nat.strong_induction_on with
  | _ j ih =>
    intro a r ha hr
    match j, ha with
    | 0, ha =>
      rw [hr] at ha
      cases ha
      exact hswo.irr _
    | j + 1, ha =>
      have hj : j + 1 < l.length := (List.getElem?_eq_some.mp ha).1
      have hp : parentIdx (j + 1) < l.length := by
        have : parentIdx (j + 1) ≤ j + 1 := by simp [parentIdx]; omega
        omega
      have hb : l[parentIdx (j + 1)]? = some l[parentIdx (j + 1)] :=
        List.getElem?_eq_getElem hp
      have h1 : lt a l[parentIdx (j + 1)] = false := hheap (j + 1) (by omega) a _ ha hb
      have h2 : lt l[parentIdx (j + 1)] r = false :=
        ih (parentIdx (j + 1)) (by simp [parentIdx]; omega) _ r hb hr
      exact hswo.trans_neg _ _ _ h1 h2

/-- Pairs of the heap invariant not involving position `pos`. -/
def CondA {I : Type} (lt : I → I → Bool) (l : List I) (pos : Nat) : Prop :=
  ∀ j, 0 < j → j ≠ pos → parentIdx j ≠ pos →
    ∀ a b, l[j]? = some a → l[parentIdx j]? = some b → lt a b = false

/-- Children of the vacant position `pos` do not compare less than the
value of the parent of `pos`. -/
def CondB {I : Type} (lt : I → I → Bool) (l : List I) (pos : Nat) : Prop :=
  0 < pos → ∀ j, 0 < j → parentIdx j = pos →
    ∀ a gp, l[j]? = some a → l[parentIdx pos]? = some gp → lt a gp = false

/-- Children of the vacant position `pos` do not compare less than the
item `x` being placed. -/
def CondC {I : Type} (lt : I → I → Bool) (l : List I) (pos : Nat) (x : I) : Prop :=
  ∀ j, 0 < j → parentIdx j = pos → ∀ a, l[j]? = some a → lt a x = false

/-- Filling the vacant position establishes the heap invariant, provided
the surrounding pairs hold, the children accept the new item, and the new
item accepts its parent. -/
theorem isHeap_of_set {I : Type} {lt : I → I → Bool} (l : List I) (pos : Nat) (x : I)
    (hpos : pos < l.length) (hA : CondA lt l pos) (hC : CondC lt l pos x)
    (hParent : 0 < pos → ∀ b, l[parentIdx pos]? = some b → lt x b = false) :
    IsHeap lt (l.set pos x) := by
  intro j hj a b ha hb
  rw [List.getElem?_set] at ha hb
  by_cases hjp : pos = j
  · subst hjp
    rw [if_pos rfl, if_pos hpos] at ha
    cases ha
    have hpp : pos ≠ parentIdx pos := by simp [parentIdx]; omega
    rw [if_neg hpp] at hb
    exact hParent hj b hb
  · rw [if_neg hjp] at ha
    by_cases hpj : pos = parentIdx j
    · rw [if_pos hpj, if_pos hpos] at hb
      cases hb
      exact hC j hj hpj.symm a ha
    · rw [if_neg hpj] at hb
      exact hA j hj (fun h => hjp h.symm) (fun h => hpj h.symm) a b ha hb

theorem siftdownGo_isHeap {I : Type} {lt : I → I → Bool} (hswo : LtSWO lt) (x : I) :
    ∀ (fuel : Nat) (l : List I) (pos : Nat), pos ≤ fuel → pos < l.length →
      CondA lt l pos → CondB lt l pos → CondC lt l pos x →
      IsHeap lt (siftdownGo lt x 0 fuel l pos) := by
  intro fuel
  induction fuel with
  | zero =>
    intro l pos hfuel hpos hA hB hC
    have hz : pos = 0 := by omega
    subst hz
    exact isHeap_of_set l 0 x hpos hA hC (fun h => absurd h (by omega))
  | succ fuel ih =>
    intro l pos hfuel hpos hA hB hC
    simp only [siftdownGo]
    by_cases hz : 0 < pos
    · rw [if_pos hz]
      show IsHeap lt
        (if lt x (l.getD ((pos - 1) / 2) x) then
          siftdownGo lt x 0 fuel (l.set pos (l.getD ((pos - 1) / 2) x)) ((pos - 1) / 2)
        else l.set pos x)
      have hppl : (pos - 1) / 2 < l.length := by omega
      have hgd : l.getD ((pos - 1) / 2) x = l[(pos - 1) / 2] := by
        rw [List.getD_eq_getElem?_getD, List.getElem?_eq_getElem hppl]
        rfl
      rw [hgd]
      have hppe : l[(pos - 1) / 2]? = some l[(pos - 1) / 2] := List.getElem?_eq_getElem hppl
      have hpplt : (pos - 1) / 2 < pos := by omega
      by_cases hlt : lt x l[(pos - 1) / 2] = true
      · rw [if_pos hlt]
        apply ih (l.set pos l[(pos - 1) / 2]) ((pos - 1) / 2) (by omega) (by simpa using hppl)
        · intro j hj hjne hpjne a b ha hb
          rw [List.getElem?_set] at ha hb
          by_cases hjpos : pos = j
          · exfalso
            apply hpjne
            rw [← hjpos]
            simp [parentIdx]
          · rw [if_neg hjpos] at ha
            by_cases hpj : pos = parentIdx j
            · rw [if_pos hpj, if_pos hpos] at hb
              cases hb
              exact hB hz j hj hpj.symm a _ ha hppe
            · rw [if_neg hpj] at hb
              exact hA j hj (fun h => hjpos h.symm) (fun h => hpj h.symm) a b ha hb
        · intro hz2 j hj hpj a gp ha hgp
          have hgpne : pos ≠ parentIdx ((pos - 1) / 2) := by
            simp only [parentIdx]
            omega
          rw [List.getElem?_set, if_neg hgpne] at hgp
          rw [List.getElem?_set] at ha
          have hppne : ((pos - 1) / 2) ≠ pos := by omega
          have hgpp : parentIdx ((pos - 1) / 2) ≠ pos := by
            simp only [parentIdx]
            omega
          have h2 : lt l[(pos - 1) / 2] gp = false :=
            hA ((pos - 1) / 2) hz2 hppne hgpp _ gp hppe hgp
          by_cases hjpos : pos = j
          · rw [if_pos hjpos, if_pos hpos] at ha
            cases ha
            exact h2
          · rw [if_neg hjpos] at ha
            have hpjnep : parentIdx j ≠ pos := by
              rw [hpj]
              omega
            have h1 : lt a l[(pos - 1) / 2] = false := by
              refine hA j hj (fun h => hjpos h.symm) hpjnep a _ ha ?_
              rw [hpj]
              exact hppe
            exact hswo.trans_neg _ _ _ h1 h2
        · intro j hj hpj a ha
          rw [List.getElem?_set] at ha
          by_cases hjpos : pos = j
          · rw [if_pos hjpos, if_pos hpos] at ha
            cases ha
            exact hswo.asymm hlt
          · rw [if_neg hjpos] at ha
            have hpjnep : parentIdx j ≠ pos := by
              rw [hpj]
              omega
            have h1 : lt a l[(pos - 1) / 2] = false := by
              refine hA j hj (fun h => hjpos h.symm) hpjnep a _ ha ?_
              rw [hpj]
              exact hppe
            exact hswo.neg_pos _ _ _ h1 hlt
      · rw [if_neg hlt]
        apply isHeap_of_set l pos x hpos hA hC
        intro _ b hb
        simp only [parentIdx] at hb
        rw [hppe] at hb
        cases hb
        have : lt x l[(pos - 1) / 2] = false := by
          cases hxe : lt x l[(pos - 1) / 2]
          · rfl
          · exact absurd hxe hlt
        exact this
    · rw [if_neg hz]
      have hz0 : pos = 0 := by omega
      subst hz0
      exact isHeap_of_set l 0 x hpos hA hC (fun h => absurd h (by omega))

/-- After moving the chosen (smallest) child value of the vacant position
into it, the vacancy conditions move down to the chosen child. -/
theorem siftup_step_conds {I : Type} {lt : I → I → Bool} (hswo : LtSWO lt)
    (l : List I) (pos c : Nat) (hpos : pos < l.length) (hc : c < l.length)
    (hchild : parentIdx c = pos) (hcpos : pos < c)
    (hmin : ∀ s, 0 < s → parentIdx s = pos → s ≠ c → (hs : s < l.length) →
      lt l[s] l[c] = false)
    (hA : CondA lt l pos) (hB : CondB lt l pos) :
    CondA lt (l.set pos l[c]) c ∧ CondB lt (l.set pos l[c]) c := by
  constructor
  · intro j hj hjne hpjne a b ha hb
    rw [List.getElem?_set] at ha hb
    by_cases hjpos : pos = j
    · subst hjpos
      rw [if_pos rfl, if_pos hpos] at ha
      cases ha
      have hppne : pos ≠ parentIdx pos := by
        simp only [parentIdx]
        omega
      rw [if_neg hppne] at hb
      exact hB hj c (by omega) hchild _ b (List.getElem?_eq_getElem hc) hb
    · rw [if_neg hjpos] at ha
      obtain ⟨hjl, ha2⟩ := List.getElem?_eq_some.mp ha
      subst ha2
      by_cases hpj : pos = parentIdx j
      · rw [if_pos hpj, if_pos hpos] at hb
        cases hb
        exact hmin j hj hpj.symm hjne hjl
      · rw [if_neg hpj] at hb
        exact hA j hj (fun h => hjpos h.symm) (fun h => hpj h.symm) _ b ha hb
  · intro hz j hj hpj a gp ha hgp
    have hjc : c < j := by
      have : j = 2 * c + 1 ∨ j = 2 * c + 2 := by
        simp only [parentIdx] at hpj
        omega
      omega
    rw [List.getElem?_set, hchild, if_pos rfl, if_pos hpos] at hgp
    cases hgp
    rw [List.getElem?_set, if_neg (by omega : pos ≠ j)] at ha
    refine hA j hj (by omega) (by rw [hpj]; omega) a _ ha ?_
    rw [hpj]
    exact List.getElem?_eq_getElem hc

theorem siftupGo_isHeap {I : Type} {lt : I → I → Bool} (hswo : LtSWO lt) (x : I) :
    ∀ (fuel : Nat) (l : List I) (pos : Nat), l.length ≤ fuel + pos → pos < l.length →
      CondA lt l pos → CondB lt l pos →
      IsHeap lt (siftupGo lt x 0 fuel l pos) := by
  intro fuel
  induction fuel with
  | zero =>
    intro l pos hfuel hpos _ _
    omega
  | succ fuel ih =>
    intro l pos hfuel hpos hA hB
    simp only [siftupGo]
    show IsHeap lt
      (if 2 * pos + 1 < l.length then
        siftupGo lt x 0 fuel
          (l.set pos (l.getD
            (if 2 * pos + 1 + 1 < l.length ∧
                lt (l.getD (2 * pos + 1) x) (l.getD (2 * pos + 1 + 1) x) = false
             then 2 * pos + 1 + 1 else 2 * pos + 1) x))
          (if 2 * pos + 1 + 1 < l.length ∧
              lt (l.getD (2 * pos + 1) x) (l.getD (2 * pos + 1 + 1) x) = false
           then 2 * pos + 1 + 1 else 2 * pos + 1)
      else siftdown lt x 0 l pos)
    by_cases hchild : 2 * pos + 1 < l.length
    · rw [if_pos hchild]
      have hgdl : l.getD (2 * pos + 1) x = l[2 * pos + 1] := by
        rw [List.getD_eq_getElem?_getD, List.getElem?_eq_getElem hchild]
        rfl
      by_cases hcond : 2 * pos + 1 + 1 < l.length ∧
          lt (l.getD (2 * pos + 1) x) (l.getD (2 * pos + 1 + 1) x) = false
      · rw [if_pos hcond]
        have hr : 2 * pos + 1 + 1 < l.length := hcond.1
        have hgdr : l.getD (2 * pos + 1 + 1) x = l[2 * pos + 1 + 1] := by
          rw [List.getD_eq_getElem?_getD, List.getElem?_eq_getElem hr]
          rfl
        have hchoose : lt l[2 * pos + 1] l[2 * pos + 1 + 1] = false := by
          rw [← hgdl, ← hgdr]
          exact hcond.2
        rw [hgdr]
        have hconds := siftup_step_conds hswo l pos (2 * pos + 1 + 1) hpos hr
          (by simp only [parentIdx]; omega) (by omega)
          (fun s hs hps hsne hsl => by
            have : s = 2 * pos + 1 := by
              simp only [parentIdx] at hps
              omega
            subst this
            exact hchoose)
          hA hB
        exact ih (l.set pos l[2 * pos + 1 + 1]) (2 * pos + 1 + 1)
          (by simp; omega) (by simpa using hr) hconds.1 hconds.2
      · rw [if_neg hcond]
        rw [hgdl]
        have hconds := siftup_step_conds hswo l pos (2 * pos + 1) hpos hchild
          (by simp only [parentIdx]; omega) (by omega)
          (fun s hs hps hsne hsl => by
            have hs2 : s = 2 * pos + 1 + 1 := by
              simp only [parentIdx] at hps
              omega
            subst hs2
            have hltr : lt (l.getD (2 * pos + 1) x) (l.getD (2 * pos + 1 + 1) x) = true := by
              rcases Decidable.not_and_iff_or_not.mp hcond with h | h
              · exact absurd hsl h
              · cases hx : lt (l.getD (2 * pos + 1) x) (l.getD (2 * pos + 1 + 1) x)
                · exact absurd hx h
                · rfl
            have hgdr : l.getD (2 * pos + 1 + 1) x = l[2 * pos + 1 + 1] := by
              rw [List.getD_eq_getElem?_getD, List.getElem?_eq_getElem hsl]
              rfl
            rw [hgdl, hgdr] at hltr
            exact hswo.asymm hltr)
          hA hB
        exact ih (l.set pos l[2 * pos + 1]) (2 * pos + 1)
          (by simp; omega) (by simpa using hchild) hconds.1 hconds.2
    · rw [if_neg hchild]
      apply siftdownGo_isHeap hswo x pos l pos (le_refl pos) hpos hA hB
      intro j hj hpj a ha
      have hjl : j < l.length := (List.getElem?_eq_some.mp ha).1
      have : j = 2 * pos + 1 ∨ j = 2 * pos + 2 := by
        simp only [parentIdx] at hpj
        omega
      omega

theorem heappush_isHeap {I : Type} {lt : I → I → Bool} (hswo : LtSWO lt)
    (l : List I) (x : I) (hheap : IsHeap lt l) : IsHeap lt (heappush lt l x) := by
  apply siftdownGo_isHeap hswo x l.length (l ++ [x]) l.length (le_refl _) (by simp)
  · intro j hj hjne hpjne a b ha hb
    have hjlt : j < l.length + 1 := by simpa using (List.getElem?_eq_some.mp ha).1
    have hjn : j < l.length := by omega
    have hpn : parentIdx j < l.length := by
      simp only [parentIdx] at *
      omega
    rw [List.getElem?_append, if_pos hjn] at ha
    rw [List.getElem?_append, if_pos hpn] at hb
    exact hheap j hj a b ha hb
  · intro hz j hj hpj a gp ha hgp
    have hjlt : j < l.length + 1 := by simpa using (List.getElem?_eq_some.mp ha).1
    simp only [parentIdx] at hpj
    omega
  · intro j hj hpj a ha
    have hjlt : j < l.length + 1 := by simpa using (List.getElem?_eq_some.mp ha).1
    simp only [parentIdx] at hpj
    omega

theorem heappop_isHeap {I : Type} {lt : I → I → Bool} (hswo : LtSWO lt)
    (l : List I) (r : I) (l2 : List I)
    (hheap : IsHeap lt l) (h : heappop lt l = some (r, l2)) : IsHeap lt l2 := by
  match hl : l.getLast? with
  | none => simp [heappop, hl] at h
  | some lastelt =>
    simp only [heappop, hl] at h
    match hr : l.dropLast.head? with
    | none =>
      simp only [hr, Option.some.injEq, Prod.mk.injEq] at h
      rw [← h.2]
      intro j hj a b ha hb
      simp at ha
    | some returnitem =>
      simp only [hr, Option.some.injEq, Prod.mk.injEq] at h
      have hne : l.dropLast ≠ [] := by
        intro habs
        rw [habs] at hr
        simp at hr
      have hlenpos : 0 < l.dropLast.length := List.length_pos.mpr hne
      rw [← h.2]
      apply siftupGo_isHeap hswo lastelt l.dropLast.length (l.dropLast.set 0 lastelt) 0
        (by simp) (by simpa using hlenpos)
      · intro j hj hjne hpjne a b ha hb
        rw [List.getElem?_set, if_neg (by omega : (0 : Nat) ≠ j)] at ha
        rw [List.getElem?_set, if_neg (fun hh => hpjne hh.symm)] at hb
        rw [List.getElem?_dropLast] at ha hb
        split at ha
        · split at hb
          · exact hheap j hj a b ha hb
          · simp at hb
        · simp at ha
      · intro hz
        exact absurd hz (lt_irrefl 0)

theorem heappop_min {I : Type} {lt : I → I → Bool} (hswo : LtSWO lt)
    (l : List I) (r : I) (l2 : List I)
    (hheap : IsHeap lt l) (h : heappop lt l = some (r, l2)) :
    ∀ a ∈ l, lt a r = false := by
  intro a ha
  obtain ⟨j, hj⟩ := List.mem_iff_getElem?.mp ha
  exact isHeap_root_min hswo hheap j a r hj (heappop_root_eq lt l r l2 h)

/-! ### Spill-file cursors and the k-way merge (`maflib/sorter.py` lines
63-173)

A `_SortedIterator` eagerly decodes the next frame of its spill file and
caches the decoded value together with its key (`__advance`, lines
84-97); the heap compares live cursors by cached key (`__lt__`, lines
99-100).  A spill file is modelled as the list of its encoded frames;
`dec`/`key` are the codec's decode and the sort key function. -/

/-- A live `_SortedIterator`: the cached key and decoded value of the
next record and the remaining encoded frames. -/
structure SortCursor (κ α δ : Type) where
  key : κ
  value : α
  rest : List δ
  deriving DecidableEq, Repr

/-- Opening a `_SortedIterator` on (the rest of) a spill file: `None`
when the file is exhausted, else a cursor holding the decoded head. -/
def mkCursor {κ α δ : Type} (key : α → κ) (dec : δ → α) :
    List δ → Option (SortCursor κ α δ)
  | [] => none
  | d :: rest => some ⟨key (dec d), dec d, rest⟩

/-- `_SortedIterator.__lt__`: compare the cached keys. -/
def cursorLt {κ α δ : Type} [LinearOrder κ] (c1 c2 : SortCursor κ α δ) : Bool :=
  decide (c1.key < c2.key)

theorem cursorLt_swo {κ α δ : Type} [LinearOrder κ] :
    LtSWO (cursorLt (κ := κ) (α := α) (δ := δ)) := by
  refine ⟨fun a => ?_, fun a b c h1 h2 => ?_, fun a b c h1 h2 => ?_⟩
  · simp [cursorLt]
  · simp only [cursorLt, decide_eq_false_iff_not, not_lt] at *
    exact le_trans h2 h1
  · simp only [cursorLt, decide_eq_false_iff_not, decide_eq_true_eq, not_lt] at *
    exact le_trans (le_of_lt h2) h1

/-- The records a cursor will still deliver, in order. -/
def cursorContents {κ α δ : Type} (dec : δ → α) (c : SortCursor κ α δ) : List α :=
  c.value :: c.rest.map dec

/-- Number of records a cursor will still deliver. -/
def cursorSize {κ α δ : Type} (c : SortCursor κ α δ) : Nat :=
  c.rest.length + 1

/-- Total number of records left in a heap of cursors. -/
def heapTotalSize {κ α δ : Type} (l : List (SortCursor κ α δ)) : Nat :=
  (l.map cursorSize).sum

/-- `_MergingIterator.__next__` driven to exhaustion (lines 157-165): pop
the minimal cursor, emit its value, advance it and push it back while it
still has data.  One record is emitted per step, so `heapTotalSize` is
sufficient fuel. -/
def mergeDrainGo {κ α δ : Type} [LinearOrder κ] (key : α → κ) (dec : δ → α) :
    Nat → List (SortCursor κ α δ) → List α
  | 0, _ => []
  | fuel + 1, heap =>
    match heappop cursorLt heap with
    | none => []
    | some (c, heap2) =>
      match mkCursor key dec c.rest with
      | some c2 => c.value :: mergeDrainGo key dec fuel (heappush cursorLt heap2 c2)
      | none => c.value :: mergeDrainGo key dec fuel heap2

/-- `_MergingIterator.__init__` (lines 136-148): open one cursor per
spill file and push them all onto the heap.  Spill files are never empty
(`Sorter.__spill` only writes when objects are buffered), so the
exhausted-cursor arm is never taken. -/
def mergeInit {κ α δ : Type} [LinearOrder κ] (key : α → κ) (dec : δ → α)
    (files : List (List δ)) : List (SortCursor κ α δ) :=
  files.foldl
    (fun h f =>
      match mkCursor key dec f with
      | some c => heappush cursorLt h c
      | none => h) []

/-- The full merging iteration over a set of spill files. -/
def mergeDrain {κ α δ : Type} [LinearOrder κ] (key : α → κ) (dec : δ → α)
    (files : List (List δ)) : List α :=
  mergeDrainGo key dec (heapTotalSize (mergeInit key dec files)) (mergeInit key dec files)

/-! ### The sorter (`maflib/sorter.py` lines 209-307)

`Sorter.add` appends an encoded `(key, data)` entry to the in-memory
stash and spills when it reaches `max_objects_in_ram`; `__spill` sorts
the stash (Python `sorted`, a stable sort on `_SortEntry.__lt__`, which
compares keys with `<`) and writes the encoded payloads to a fresh file;
`__iter__` either merges all spill files (after a final spill) or sorts
and decodes the stash in memory.  Python's stable sort is modelled as
insertion from the left placing each new entry after all entries whose
key is not greater. -/

/-- Insert an entry into an already sorted stash, after every entry with
key less than or equal to its own (the unique stable position). -/
def pyInsertEntry {κ δ : Type} [LinearOrder κ] (e : κ × δ) :
    List (κ × δ) → List (κ × δ)
  | [] => [e]
  | f :: fs => if e.1 < f.1 then e :: f :: fs else f :: pyInsertEntry e fs

/-- Python `sorted` on `_SortEntry` values: the stable sort by key. -/
def pysorted {κ δ : Type} [LinearOrder κ] (l : List (κ × δ)) : List (κ × δ) :=
  l.foldl (fun acc e => pyInsertEntry e acc) []

/-- The sorter state: the in-memory stash of `(key, encoded)` entries in
insertion order, and the spill files written so far, each a list of
encoded payloads in key-sorted order. -/
structure SorterState (κ δ : Type) where
  stash : List (κ × δ)
  files : List (List δ)
  deriving DecidableEq, Repr

/-- `Sorter.__spill` (lines 290-307): when objects are buffered, sort the
stash and append its payloads as a new spill file, clearing the stash. -/
def spillState {κ δ : Type} [LinearOrder κ] (st : SorterState κ δ) : SorterState κ δ :=
  if 0 < st.stash.length then
    ⟨[], st.files ++ [(pysorted st.stash).map Prod.snd]⟩
  else st

/-- `Sorter.add` (lines 253-261): key and encode the record, append the
entry, spill when the stash reaches `max_objects_in_ram`. -/
def sorterAdd {κ α δ : Type} [LinearOrder κ] (key : α → κ) (enc : α → δ)
    (k : Nat) (st : SorterState κ δ) (r : α) : SorterState κ δ :=
  let st2 : SorterState κ δ := ⟨st.stash ++ [(key r, enc r)], st.files⟩
  if st2.stash.length = k then spillState st2 else st2

/-- Adding a list of records to a fresh sorter. -/
def sorterAddAll {κ α δ : Type} [LinearOrder κ] (key : α → κ) (enc : α → δ)
    (k : Nat) (records : List α) : SorterState κ δ :=
  records.foldl (sorterAdd key enc k) ⟨[], []⟩

/-- The in-memory branch of `Sorter.__iter__` (lines 272-282): sort the
stash and decode each entry. -/
def inMemoryIter {κ δ α : Type} [LinearOrder κ] (dec : δ → α) (st : SorterState κ δ) :
    List α :=
  (pysorted st.stash).map (fun e => dec e.2)

/-- `Sorter.__iter__` (lines 263-282) after adding `records`: when spill
files exist or `always_spill` is set, spill the remainder and run the
k-way merge; otherwise sort and decode in memory. -/
def sorterIterate {κ α δ : Type} [LinearOrder κ] (key : α → κ) (enc : α → δ)
    (dec : δ → α) (k : Nat) (alwaysSpill : Bool) (records : List α) : List α :=
  let st := sorterAddAll key enc k records
  if !st.files.isEmpty || alwaysSpill then
    mergeDrain key dec (spillState st).files
  else inMemoryIter dec st

/-- Sorting all records in memory at once: encode them, stable-sort by
key, decode — the spec's reference result, identical to the sorter's own
in-memory branch. -/
def inMemorySortAll {κ α δ : Type} [LinearOrder κ] (key : α → κ) (enc : α → δ)
    (dec : δ → α) (records : List α) : List α :=
  (pysorted (records.map (fun r => (key r, enc r)))).map (fun e => dec e.2)

theorem pyInsertEntry_perm {κ δ : Type} [LinearOrder κ] (e : κ × δ) :
    ∀ l : List (κ × δ), (pyInsertEntry e l).Perm (e :: l) := by
  intro l
  induction l with
  | nil => simp [pyInsertEntry]
  | cons f fs ih =>
    simp only [pyInsertEntry]
    split
    · exact List.Perm.refl _
    · exact (ih.cons f).trans (List.Perm.swap e f fs)

theorem pysorted_perm {κ δ : Type} [LinearOrder κ] (l : List (κ × δ)) :
    (pysorted l).Perm l := by
  have main : ∀ (l acc : List (κ × δ)),
      (l.foldl (fun acc e => pyInsertEntry e acc) acc).Perm (acc ++ l) := by
    intro l
    induction l with
    | nil => intro acc; simp
    | cons e t ih =>
      intro acc
      simp only [List.foldl_cons]
      exact ((ih (pyInsertEntry e acc)).trans
        (((pyInsertEntry_perm e acc).append_right t).trans List.perm_middle.symm))
  simpa [pysorted] using main l []

theorem pyInsertEntry_sorted {κ δ : Type} [LinearOrder κ] (e : κ × δ) :
    ∀ l : List (κ × δ), List.Sorted (· ≤ ·) (l.map Prod.fst) →
      List.Sorted (· ≤ ·) ((pyInsertEntry e l).map Prod.fst) := by
  intro l
  induction l with
  | nil => intro _; simp [pyInsertEntry]
  | cons f fs ih =>
    intro hs
    rw [List.map_cons, List.sorted_cons] at hs
    simp only [pyInsertEntry]
    split
    · rename_i hlt
      rw [List.map_cons, List.map_cons, List.sorted_cons, List.sorted_cons]
      refine ⟨?_, hs.1, hs.2⟩
      intro b hb
      rcases List.mem_cons.mp hb with h | h
      · rw [h]
        exact le_of_lt hlt
      · exact le_trans (le_of_lt hlt) (hs.1 b h)
    · rename_i hge
      rw [List.map_cons, List.sorted_cons]
      refine ⟨?_, ih hs.2⟩
      intro b hb
      have hmem : b ∈ (e :: fs).map Prod.fst := by
        have : ((pyInsertEntry e fs).map Prod.fst).Perm ((e :: fs).map Prod.fst) :=
          (pyInsertEntry_perm e fs).map Prod.fst
        exact this.mem_iff.mp hb
      rcases List.mem_cons.mp hmem with h | h
      · rw [h]
        exact not_lt.mp hge
      · exact hs.1 b h

theorem pysorted_sorted {κ δ : Type} [LinearOrder κ] (l : List (κ × δ)) :
    List.Sorted (· ≤ ·) ((pysorted l).map Prod.fst) := by
  have main : ∀ (l acc : List (κ × δ)), List.Sorted (· ≤ ·) (acc.map Prod.fst) →
      List.Sorted (· ≤ ·) ((l.foldl (fun acc e => pyInsertEntry e acc) acc).map Prod.fst) := by
    intro l
    induction l with
    | nil => intro acc h; simpa using h
    | cons e t ih =>
      intro acc h
      simp only [List.foldl_cons]
      exact ih (pyInsertEntry e acc) (pyInsertEntry_sorted e acc h)
  exact main l [] (by simp)

/-- A spill file is sorted when the keys of its decoded frames are
non-decreasing. -/
def SortedFile {κ α δ : Type} [LinearOrder κ] (key : α → κ) (dec : δ → α)
    (f : List δ) : Prop :=
  List.Sorted (· ≤ ·) (f.map (fun d => key (dec d)))

/-- A live cursor is well formed: its cached key is the key of its cached
value, and the records it will deliver have non-decreasing keys. -/
def CursorOK {κ α δ : Type} [LinearOrder κ] (key : α → κ) (dec : δ → α)
    (c : SortCursor κ α δ) : Prop :=
  c.key = key c.value ∧ List.Sorted (· ≤ ·) ((cursorContents dec c).map key)

theorem mkCursor_ok {κ α δ : Type} [LinearOrder κ] (key : α → κ) (dec : δ → α)
    (f : List δ) (c : SortCursor κ α δ) (hf : SortedFile key dec f)
    (h : mkCursor key dec f = some c) : CursorOK key dec c := by
  match f, h with
  | d :: rest, h =>
    simp only [mkCursor, Option.some.injEq] at h
    subst h
    refine ⟨rfl, ?_⟩
    simpa [cursorContents, SortedFile, Function.comp] using hf

theorem cursor_advance_ok {κ α δ : Type} [LinearOrder κ] (key : α → κ) (dec : δ → α)
    (c c2 : SortCursor κ α δ) (hc : CursorOK key dec c)
    (h : mkCursor key dec c.rest = some c2) :
    CursorOK key dec c2 ∧ c.key ≤ c2.key := by
  match hrest : c.rest, h with
  | d :: rest, h =>
    simp only [mkCursor, Option.some.injEq] at h
    subst h
    obtain ⟨hkey, hsorted⟩ := hc
    rw [cursorContents, hrest] at hsorted
    simp only [List.map_cons, List.sorted_cons] at hsorted
    constructor
    · refine ⟨rfl, ?_⟩
      simpa [cursorContents] using hsorted.2
    · rw [hkey]
      exact hsorted.1 (key (dec d)) (by simp)

/-- Sum of the records still to deliver over a multiset of cursors. -/
def contentsSumM {κ α δ : Type} (dec : δ → α) (m : Multiset (SortCursor κ α δ)) :
    Multiset α :=
  (m.map (fun c => (↑(cursorContents dec c) : Multiset α))).sum

/-- Sum of the cursor sizes over a multiset of cursors. -/
def sizeM {κ α δ : Type} (m : Multiset (SortCursor κ α δ)) : Nat :=
  (m.map cursorSize).sum

theorem contentsSumM_cons {κ α δ : Type} (dec : δ → α) (c : SortCursor κ α δ)
    (m : Multiset (SortCursor κ α δ)) :
    contentsSumM dec (c ::ₘ m) = (↑(cursorContents dec c) : Multiset α) + contentsSumM dec m := by
  simp [contentsSumM]

theorem sizeM_cons {κ α δ : Type} (c : SortCursor κ α δ)
    (m : Multiset (SortCursor κ α δ)) :
    sizeM (c ::ₘ m) = cursorSize c + sizeM m := by
  simp [sizeM]

theorem heapTotalSize_eq_sizeM {κ α δ : Type} (l : List (SortCursor κ α δ)) :
    heapTotalSize l = sizeM (↑l : Multiset (SortCursor κ α δ)) := by
  simp [heapTotalSize, sizeM]

theorem mergeDrainGo_multiset {κ α δ : Type} [LinearOrder κ] (key : α → κ) (dec : δ → α) :
    ∀ (fuel : Nat) (heap : List (SortCursor κ α δ)),
      sizeM (↑heap : Multiset (SortCursor κ α δ)) ≤ fuel →
      (↑(mergeDrainGo key dec fuel heap) : Multiset α) =
        contentsSumM dec (↑heap : Multiset (SortCursor κ α δ)) := by
  intro fuel
  induction fuel with
  | zero =>
    intro heap hsize
    match heap with
    | [] => simp [mergeDrainGo, contentsSumM]
    | c :: t =>
      exfalso
      rw [← Multiset.cons_coe, sizeM_cons] at hsize
      simp [cursorSize] at hsize
  | succ fuel ih =>
    intro heap hsize
    simp only [mergeDrainGo]
    match hpop : heappop cursorLt heap with
    | none =>
      have : heap = [] := (heappop_none_iff _ heap).mp hpop
      subst this
      simp [contentsSumM]
    | some (c, heap2) =>
      have hm : (↑heap : Multiset (SortCursor κ α δ)) = c ::ₘ (↑heap2 : Multiset _) :=
        heappop_multiset cursorLt heap c heap2 hpop
      have hsize2 : cursorSize c + sizeM (↑heap2 : Multiset (SortCursor κ α δ)) ≤ fuel + 1 := by
        rw [← sizeM_cons, ← hm]
        exact hsize
      show (↑((match mkCursor key dec c.rest with
            | some c2 => c.value :: mergeDrainGo key dec fuel (heappush cursorLt heap2 c2)
            | none => c.value :: mergeDrainGo key dec fuel heap2 : List α)) : Multiset α)
          = contentsSumM dec (↑heap : Multiset (SortCursor κ α δ))
      match hmk : mkCursor key dec c.rest with
      | some c2 =>
        show (↑(c.value :: mergeDrainGo key dec fuel (heappush cursorLt heap2 c2)) : Multiset α)
            = contentsSumM dec (↑heap : Multiset (SortCursor κ α δ))
        match hrest : c.rest with
        | [] =>
          rw [hrest] at hmk
          simp [mkCursor] at hmk
        | d :: rest =>
          rw [hrest] at hmk
          simp only [mkCursor, Option.some.injEq] at hmk
          have hsz2 : cursorSize c2 = rest.length + 1 := by
            rw [← hmk]
            simp [cursorSize]
          have hcs : cursorSize c = rest.length + 2 := by
            simp [cursorSize, hrest]
          have hpush : (↑(heappush cursorLt heap2 c2) : Multiset (SortCursor κ α δ))
              = c2 ::ₘ (↑heap2 : Multiset _) := heappush_multiset _ _ _
          have hfuel2 : sizeM (↑(heappush cursorLt heap2 c2) : Multiset (SortCursor κ α δ)) ≤ fuel := by
            rw [hpush, sizeM_cons, hsz2]
            omega
          rw [← Multiset.cons_coe, ← Multiset.singleton_add, ih _ hfuel2, hpush,
            contentsSumM_cons, hm, contentsSumM_cons]
          have hcc : (↑(cursorContents dec c) : Multiset α)
              = {c.value} + (↑(cursorContents dec c2) : Multiset α) := by
            rw [← hmk]
            simp only [cursorContents, hrest, List.map_cons]
            rw [← Multiset.cons_coe, ← Multiset.cons_coe, ← Multiset.singleton_add,
              ← Multiset.singleton_add]
          rw [hcc]
          abel
      | none =>
        show (↑(c.value :: mergeDrainGo key dec fuel heap2) : Multiset α)
            = contentsSumM dec (↑heap : Multiset (SortCursor κ α δ))
        match hrest : c.rest with
        | d :: rest =>
          rw [hrest] at hmk
          simp [mkCursor] at hmk
        | [] =>
          have hfuel2 : sizeM (↑heap2 : Multiset (SortCursor κ α δ)) ≤ fuel := by
            have : cursorSize c = 1 := by simp [cursorSize, hrest]
            omega
          rw [← Multiset.cons_coe, ← Multiset.singleton_add, ih _ hfuel2, hm, contentsSumM_cons]
          have hcc : (↑(cursorContents dec c) : Multiset α) = {c.value} := by
            simp [cursorContents, hrest]
          rw [hcc]

theorem mergeDrainGo_spec {κ α δ : Type} [LinearOrder κ] (key : α → κ) (dec : δ → α) :
    ∀ (fuel : Nat) (heap : List (SortCursor κ α δ)),
      sizeM (↑heap : Multiset (SortCursor κ α δ)) ≤ fuel →
      IsHeap cursorLt heap → (∀ c ∈ heap, CursorOK key dec c) →
      List.Sorted (· ≤ ·) ((mergeDrainGo key dec fuel heap).map key)
      ∧ (∀ K, (∀ c ∈ heap, K ≤ c.key) →
          ∀ a ∈ mergeDrainGo key dec fuel heap, K ≤ key a) := by
  intro fuel
  induction fuel with
  | zero =>
    intro heap _ _ _
    exact ⟨by simp [mergeDrainGo], by simp [mergeDrainGo]⟩
  | succ fuel ih =>
    intro heap hsize hheap hok
    match hpop : heappop cursorLt heap with
    | none =>
      have hred : mergeDrainGo key dec (fuel + 1) heap = [] := by
        simp only [mergeDrainGo]
        rw [hpop]
      rw [hred]
      exact ⟨by simp, by simp⟩
    | some (c, heap2) =>
      have hm := heappop_multiset cursorLt heap c heap2 hpop
      have hcmem : c ∈ heap := List.getElem?_mem (heappop_root_eq cursorLt heap c heap2 hpop)
      have hcok : CursorOK key dec c := hok c hcmem
      have hmin : ∀ x ∈ heap, c.key ≤ x.key := by
        intro x hx
        have := heappop_min cursorLt_swo heap c heap2 hheap hpop x hx
        simpa [cursorLt, not_lt] using this
      have hmem2 : ∀ x ∈ heap2, x ∈ heap := by
        intro x hx
        rw [← Multiset.mem_coe, hm]
        exact Multiset.mem_cons_of_mem (Multiset.mem_coe.mpr hx)
      have hheap2 : IsHeap cursorLt heap2 := heappop_isHeap cursorLt_swo heap c heap2 hheap hpop
      have hok2 : ∀ x ∈ heap2, CursorOK key dec x := fun x hx => hok x (hmem2 x hx)
      have hsz : cursorSize c + sizeM (↑heap2 : Multiset (SortCursor κ α δ)) ≤ fuel + 1 := by
        rw [← sizeM_cons, ← hm]
        exact hsize
      match hmk : mkCursor key dec c.rest with
      | some c2 =>
        have hred : mergeDrainGo key dec (fuel + 1) heap
            = c.value :: mergeDrainGo key dec fuel (heappush cursorLt heap2 c2) := by
          simp only [mergeDrainGo]
          rw [hpop]
          show (match mkCursor key dec c.rest with
            | some c2 => c.value :: mergeDrainGo key dec fuel (heappush cursorLt heap2 c2)
            | none => c.value :: mergeDrainGo key dec fuel heap2)
              = c.value :: mergeDrainGo key dec fuel (heappush cursorLt heap2 c2)
          rw [hmk]
        have hadv := cursor_advance_ok key dec c c2 hcok hmk
        have hsz2 : cursorSize c2 + 1 = cursorSize c := by
          match hrest : c.rest with
          | [] =>
            rw [hrest] at hmk
            simp [mkCursor] at hmk
          | d :: rest =>
            rw [hrest] at hmk
            simp only [mkCursor, Option.some.injEq] at hmk
            rw [← hmk]
            simp [cursorSize, hrest]
        have hpushm := heappush_multiset cursorLt heap2 c2
        have hfuel2 : sizeM (↑(heappush cursorLt heap2 c2) : Multiset (SortCursor κ α δ)) ≤ fuel := by
          rw [hpushm, sizeM_cons]
          omega
        have hpushheap : IsHeap cursorLt (heappush cursorLt heap2 c2) :=
          heappush_isHeap cursorLt_swo heap2 c2 hheap2
        have hmempush : ∀ x ∈ heappush cursorLt heap2 c2, x = c2 ∨ x ∈ heap2 := by
          intro x hx
          have hxm : x ∈ (↑(heappush cursorLt heap2 c2) : Multiset (SortCursor κ α δ)) :=
            Multiset.mem_coe.mpr hx
          rw [hpushm] at hxm
          rcases Multiset.mem_cons.mp hxm with h | h
          · exact Or.inl h
          · exact Or.inr (Multiset.mem_coe.mp h)
        have hokpush : ∀ x ∈ heappush cursorLt heap2 c2, CursorOK key dec x := by
          intro x hx
          rcases hmempush x hx with h | h
          · rw [h]
            exact hadv.1
          · exact hok2 x h
        have hminpush : ∀ x ∈ heappush cursorLt heap2 c2, c.key ≤ x.key := by
          intro x hx
          rcases hmempush x hx with h | h
          · rw [h]
            exact hadv.2
          · exact hmin x (hmem2 x h)
        obtain ⟨ihs, ihlb⟩ := ih (heappush cursorLt heap2 c2) hfuel2 hpushheap hokpush
        rw [hred]
        constructor
        · rw [List.map_cons, List.sorted_cons]
          refine ⟨?_, ihs⟩
          intro b hb
          rcases List.mem_map.mp hb with ⟨a, ha, rfl⟩
          have := ihlb c.key hminpush a ha
          rw [← hcok.1]
          exact this
        · intro K hK a ha
          rcases List.mem_cons.mp ha with h | h
          · rw [h, ← hcok.1]
            exact hK c hcmem
          · exact ihlb K (fun x hx => le_trans (hK c hcmem) (hminpush x hx)) a h
      | none =>
        have hred : mergeDrainGo key dec (fuel + 1) heap
            = c.value :: mergeDrainGo key dec fuel heap2 := by
          simp only [mergeDrainGo]
          rw [hpop]
          show (match mkCursor key dec c.rest with
            | some c2 => c.value :: mergeDrainGo key dec fuel (heappush cursorLt heap2 c2)
            | none => c.value :: mergeDrainGo key dec fuel heap2)
              = c.value :: mergeDrainGo key dec fuel heap2
          rw [hmk]
        have hfuel2 : sizeM (↑heap2 : Multiset (SortCursor κ α δ)) ≤ fuel := by
          have : 1 ≤ cursorSize c := by simp [cursorSize]
          omega
        obtain ⟨ihs, ihlb⟩ := ih heap2 hfuel2 hheap2 hok2
        have hmin2 : ∀ x ∈ heap2, c.key ≤ x.key := fun x hx => hmin x (hmem2 x hx)
        rw [hred]
        constructor
        · rw [List.map_cons, List.sorted_cons]
          refine ⟨?_, ihs⟩
          intro b hb
          rcases List.mem_map.mp hb with ⟨a, ha, rfl⟩
          have := ihlb c.key hmin2 a ha
          rw [← hcok.1]
          exact this
        · intro K hK a ha
          rcases List.mem_cons.mp ha with h | h
          · rw [h, ← hcok.1]
            exact hK c hcmem
          · exact ihlb K (fun x hx => le_trans (hK c hcmem) (hmin2 x hx)) a h

theorem mkCursor_contents {κ α δ : Type} (key : α → κ) (dec : δ → α)
    (f : List δ) (c : SortCursor κ α δ) (h : mkCursor key dec f = some c) :
    cursorContents dec c = f.map dec := by
  match f, h with
  | d :: rest, h =>
    simp only [mkCursor, Option.some.injEq] at h
    subst h
    simp [cursorContents]

theorem mergeInit_facts {κ α δ : Type} [LinearOrder κ] (key : α → κ) (dec : δ → α)
    (files : List (List δ)) (hs : ∀ f ∈ files, SortedFile key dec f) :
    IsHeap cursorLt (mergeInit key dec files)
    ∧ (∀ c ∈ mergeInit key dec files, CursorOK key dec c)
    ∧ contentsSumM dec (↑(mergeInit key dec files) : Multiset (SortCursor κ α δ))
        = (files.map (fun f => (↑(f.map dec) : Multiset α))).sum := by
  have main : ∀ (files : List (List δ)) (acc : List (SortCursor κ α δ)),
      (∀ f ∈ files, SortedFile key dec f) →
      IsHeap cursorLt acc → (∀ c ∈ acc, CursorOK key dec c) →
      IsHeap cursorLt (files.foldl
        (fun h f => match mkCursor key dec f with
          | some c => heappush cursorLt h c
          | none => h) acc)
      ∧ (∀ c ∈ files.foldl
          (fun h f => match mkCursor key dec f with
            | some c => heappush cursorLt h c
            | none => h) acc, CursorOK key dec c)
      ∧ contentsSumM dec (↑(files.foldl
          (fun h f => match mkCursor key dec f with
            | some c => heappush cursorLt h c
            | none => h) acc) : Multiset (SortCursor κ α δ))
        = contentsSumM dec (↑acc : Multiset (SortCursor κ α δ))
          + (files.map (fun f => (↑(f.map dec) : Multiset α))).sum := by
    intro files
    induction files with
    | nil =>
      intro acc _ hheap hok
      refine ⟨hheap, hok, by simp⟩
    | cons f fs ih =>
      intro acc hsf hheap hok
      simp only [List.foldl_cons]
      match hmk : mkCursor key dec f with
      | none =>
        match f, hmk with
        | [], hmk =>
          obtain ⟨h1, h2, h3⟩ := ih acc (fun g hg => hsf g (by simp [hg])) hheap hok
          refine ⟨h1, h2, ?_⟩
          rw [h3]
          simp
      | some c =>
        have hcok : CursorOK key dec c := mkCursor_ok key dec f c (hsf f (by simp)) hmk
        have hpushm := heappush_multiset cursorLt acc c
        have hmem : ∀ x ∈ heappush cursorLt acc c, x = c ∨ x ∈ acc := by
          intro x hx
          have hxm : x ∈ (↑(heappush cursorLt acc c) : Multiset (SortCursor κ α δ)) :=
            Multiset.mem_coe.mpr hx
          rw [hpushm] at hxm
          rcases Multiset.mem_cons.mp hxm with h | h
          · exact Or.inl h
          · exact Or.inr (Multiset.mem_coe.mp h)
        obtain ⟨h1, h2, h3⟩ := ih (heappush cursorLt acc c)
          (fun g hg => hsf g (by simp [hg]))
          (heappush_isHeap cursorLt_swo acc c hheap)
          (fun x hx => by
            rcases hmem x hx with h | h
            · rw [h]; exact hcok
            · exact hok x h)
        refine ⟨h1, h2, ?_⟩
        rw [h3, hpushm, contentsSumM_cons, mkCursor_contents key dec f c hmk]
        simp only [List.map_cons, List.sum_cons]
        abel
  have h := main files [] hs (by intro j hj a b ha hb; simp at ha) (by simp)
  simp only [mergeInit]
  refine ⟨h.1, h.2.1, ?_⟩
  rw [h.2.2]
  simp [contentsSumM]

theorem files_contents_flatten {α δ : Type} (dec : δ → α) :
    ∀ files : List (List δ),
      (files.map (fun f => (↑(f.map dec) : Multiset α))).sum
        = (↑((files.flatMap id).map dec) : Multiset α) := by
  intro files
  induction files with
  | nil => simp
  | cons f fs ih =>
    simp only [List.map_cons, List.sum_cons, List.flatMap_cons, id]
    rw [ih, List.map_append, ← Multiset.coe_add]

/-- The encoded payloads a sorter state still holds: spill files first,
then the stash. -/
def stFlat {κ δ : Type} (st : SorterState κ δ) : List δ :=
  st.files.flatMap id ++ st.stash.map Prod.snd

theorem spillState_facts {κ δ : Type} [LinearOrder κ] (key : α → κ) (dec : δ → α)
    (st : SorterState κ δ)
    (hgood : ∀ e ∈ st.stash, key (dec e.2) = e.1)
    (hfiles : ∀ f ∈ st.files, SortedFile key dec f) :
    (∀ f ∈ (spillState st).files, SortedFile key dec f)
    ∧ (↑((spillState st).files.flatMap id) : Multiset δ) = (↑(stFlat st) : Multiset δ)
    ∧ (spillState st).stash = [] ∨ spillState st = st ∧ st.stash = [] := by
  by_cases hlen : 0 < st.stash.length
  · left
    have hnew : SortedFile key dec ((pysorted st.stash).map Prod.snd) := by
      have hmap : ((pysorted st.stash).map Prod.snd).map (fun d => key (dec d))
          = (pysorted st.stash).map Prod.fst := by
        rw [List.map_map]
        apply List.map_congr_left
        intro e he
        have : e ∈ st.stash := (pysorted_perm st.stash).mem_iff.mp he
        exact hgood e this
      rw [SortedFile, hmap]
      exact pysorted_sorted st.stash
    refine ⟨?_, ?_, ?_⟩
    · intro f hf
      simp only [spillState, if_pos hlen] at hf
      rcases List.mem_append.mp hf with h | h
      · exact hfiles f h
      · rw [List.mem_singleton.mp h]
        exact hnew
    · simp only [spillState, if_pos hlen, stFlat]
      rw [List.flatMap_append]
      simp only [List.flatMap_cons, List.flatMap_nil, List.append_nil, id]
      rw [← Multiset.coe_add, ← Multiset.coe_add]
      congr 1
      rw [Multiset.coe_eq_coe]
      exact (pysorted_perm st.stash).map Prod.snd
    · simp [spillState, if_pos hlen]
  · right
    have hempty : st.stash = [] := by
      rw [← List.length_eq_zero]
      omega
    exact ⟨by simp [spillState, hlen], hempty⟩

theorem sorterAdd_inv {κ α δ : Type} [LinearOrder κ] (key : α → κ) (enc : α → δ)
    (dec : δ → α) (k : Nat) (hk : 1 ≤ k) (hrt : ∀ r, key (dec (enc r)) = key r)
    (st : SorterState κ δ) (r : α)
    (hlen : st.stash.length < k)
    (hgood : ∀ e ∈ st.stash, key (dec e.2) = e.1)
    (hfiles : ∀ f ∈ st.files, SortedFile key dec f) :
    (sorterAdd key enc k st r).stash.length < k
    ∧ (∀ e ∈ (sorterAdd key enc k st r).stash, key (dec e.2) = e.1)
    ∧ (∀ f ∈ (sorterAdd key enc k st r).files, SortedFile key dec f)
    ∧ (↑(stFlat (sorterAdd key enc k st r)) : Multiset δ)
        = (↑(stFlat st) : Multiset δ) + {enc r} := by
  have hgood2 : ∀ e ∈ st.stash ++ [(key r, enc r)], key (dec e.2) = e.1 := by
    intro e he
    rcases List.mem_append.mp he with h | h
    · exact hgood e h
    · rw [List.mem_singleton.mp h]
      exact hrt r
  simp only [sorterAdd]
  by_cases hfull : (st.stash ++ [(key r, enc r)]).length = k
  · rw [if_pos hfull]
    have hsp := spillState_facts key dec ⟨st.stash ++ [(key r, enc r)], st.files⟩
      hgood2 hfiles
    rcases hsp with ⟨hf, hflat, hstash⟩ | ⟨heq, hempty⟩
    · refine ⟨by rw [hstash]; simpa using hk, by rw [hstash]; simp, hf, ?_⟩
      have : stFlat (spillState ⟨st.stash ++ [(key r, enc r)], st.files⟩)
          = (spillState ⟨st.stash ++ [(key r, enc r)], st.files⟩).files.flatMap id := by
        simp [stFlat, hstash]
      rw [this, hflat]
      simp only [stFlat]
      rw [← Multiset.coe_add, ← Multiset.coe_add]
      simp only [List.map_append, List.map_cons, List.map_nil]
      rw [← Multiset.coe_add]
      have : (↑([enc r] : List δ) : Multiset δ) = {enc r} := rfl
      rw [this]
      abel
    · exfalso
      have := congrArg List.length hempty
      simp at this
  · rw [if_neg hfull]
    refine ⟨?_, hgood2, hfiles, ?_⟩
    · show (st.stash ++ [(key r, enc r)]).length < k
      have : (st.stash ++ [(key r, enc r)]).length = st.stash.length + 1 := by simp
      omega
    · simp only [stFlat]
      rw [← Multiset.coe_add, ← Multiset.coe_add]
      simp only [List.map_append, List.map_cons, List.map_nil]
      rw [← Multiset.coe_add]
      have : (↑([enc r] : List δ) : Multiset δ) = {enc r} := rfl
      rw [this]
      abel

theorem sorterAddAll_inv {κ α δ : Type} [LinearOrder κ] (key : α → κ) (enc : α → δ)
    (dec : δ → α) (k : Nat) (hk : 1 ≤ k) (hrt : ∀ r, key (dec (enc r)) = key r) :
    ∀ (records : List α) (st : SorterState κ δ),
      st.stash.length < k →
      (∀ e ∈ st.stash, key (dec e.2) = e.1) →
      (∀ f ∈ st.files, SortedFile key dec f) →
      (records.foldl (sorterAdd key enc k) st).stash.length < k
      ∧ (∀ e ∈ (records.foldl (sorterAdd key enc k) st).stash, key (dec e.2) = e.1)
      ∧ (∀ f ∈ (records.foldl (sorterAdd key enc k) st).files, SortedFile key dec f)
      ∧ (↑(stFlat (records.foldl (sorterAdd key enc k) st)) : Multiset δ)
          = (↑(stFlat st) : Multiset δ) + (↑(records.map enc) : Multiset δ) := by
  intro records
  induction records with
  | nil =>
    intro st h1 h2 h3
    exact ⟨h1, h2, h3, by simp⟩
  | cons r rest ih =>
    intro st h1 h2 h3
    simp only [List.foldl_cons]
    obtain ⟨g1, g2, g3, g4⟩ := sorterAdd_inv key enc dec k hk hrt st r h1 h2 h3
    obtain ⟨w1, w2, w3, w4⟩ := ih (sorterAdd key enc k st r) g1 g2 g3
    refine ⟨w1, w2, w3, ?_⟩
    rw [w4, g4]
    simp only [List.map_cons]
    rw [← Multiset.cons_coe, ← Multiset.singleton_add]
    abel

theorem eq_of_perm_of_sorted_keys {κ α : Type} [LinearOrder κ] (key : α → κ) :
    ∀ (l1 l2 : List α), l1.Perm l2 →
      List.Sorted (· ≤ ·) (l1.map key) → List.Sorted (· ≤ ·) (l2.map key) →
      (l1.map key).Nodup → l1 = l2 := by
  intro l1
  induction l1 with
  | nil =>
    intro l2 hp _ _ _
    exact (hp.symm.eq_nil).symm ▸ rfl
  | cons a t ih =>
    intro l2 hp hs1 hs2 hnd
    match l2 with
    | [] =>
      exact absurd hp.eq_nil (by simp)
    | b :: t2 =>
      by_cases hab : a = b
      · subst hab
        have ht : t.Perm t2 := hp.cons_inv
        rw [ih t2 ht
          ((List.sorted_cons.mp (by simpa using hs1)).2)
          ((List.sorted_cons.mp (by simpa using hs2)).2)
          ((List.nodup_cons.mp (by simpa using hnd)).2)]
      · exfalso
        have ha2 : a ∈ t2 := by
          have : a ∈ b :: t2 := hp.mem_iff.mp (by simp)
          rcases List.mem_cons.mp this with h | h
          · exact absurd h hab
          · exact h
        have hb1 : b ∈ t := by
          have : b ∈ a :: t := hp.mem_iff.mpr (by simp)
          rcases List.mem_cons.mp this with h | h
          · exact absurd h.symm hab
          · exact h
        have h1 : key b ≤ key a :=
          (List.sorted_cons.mp (by simpa using hs2)).1 (key a) (List.mem_map_of_mem key ha2)
        have h2 : key a ≤ key b :=
          (List.sorted_cons.mp (by simpa using hs1)).1 (key b) (List.mem_map_of_mem key hb1)
        have heq : key a = key b := le_antisymm h2 h1
        have : key a ∉ t.map key := (List.nodup_cons.mp (by simpa using hnd)).1
        exact this (heq ▸ List.mem_map_of_mem key hb1)

theorem sorterAddAll_no_spill {κ α δ : Type} [LinearOrder κ] (key : α → κ) (enc : α → δ)
    (k : Nat) :
    ∀ (records : List α) (st : SorterState κ δ),
      st.stash.length + records.length < k →
      records.foldl (sorterAdd key enc k) st
        = ⟨st.stash ++ records.map (fun r => (key r, enc r)), st.files⟩ := by
  intro records
  induction records with
  | nil =>
    intro st _
    simp
  | cons r rest ih =>
    intro st hlen
    simp only [List.foldl_cons]
    have hne : ¬ (st.stash ++ [(key r, enc r)]).length = k := by
      simp only [List.length_append, List.length_cons, List.length_nil]
      simp only [List.length_cons] at hlen
      omega
    have hstep : sorterAdd key enc k st r = ⟨st.stash ++ [(key r, enc r)], st.files⟩ := by
      simp only [sorterAdd]
      rw [if_neg hne]
    rw [hstep, ih ⟨st.stash ++ [(key r, enc r)], st.files⟩ (by
      simp only [List.length_append, List.length_cons, List.length_nil]
      simp only [List.length_cons] at hlen
      omega)]
    simp

/-- C1 amended: with any buffer bound `1 <= k <= N` and a key-preserving
codec, iterating the Sorter yields a permutation of the in-memory sort
with non-decreasing keys, and when no two records share a key it yields
exactly the in-memory sort; when everything fits in memory and
`always_spill` is off, the sorter itself computes the in-memory sort.
(With equal keys the spilled heap merge may reorder records, see the
counterexample.) -/
theorem sorter_spill_merge_equivalence {κ α δ : Type} [LinearOrder κ]
    (key : α → κ) (enc : α → δ) (dec : δ → α)
    (records : List α) (k : Nat) (alwaysSpill : Bool)
    (hk : 1 ≤ k) (hkn : k ≤ records.length)
    (hrt : ∀ r, key (dec (enc r)) = key r) :
    (sorterIterate key enc dec k alwaysSpill records).Perm
        (inMemorySortAll key enc dec records)
    ∧ List.Sorted (· ≤ ·) ((sorterIterate key enc dec k alwaysSpill records).map key)
    ∧ ((records.map key).Nodup →
        sorterIterate key enc dec k alwaysSpill records
          = inMemorySortAll key enc dec records)
    ∧ (∀ k2, records.length < k2 →
        sorterIterate key enc dec k2 false records
          = inMemorySortAll key enc dec records) := by
  obtain ⟨hstash, hgood, hfsorted, hflat⟩ :=
    sorterAddAll_inv key enc dec k hk hrt records ⟨[], []⟩
      (by simpa using hk) (by simp) (by simp)
  have hflat2 : (↑(stFlat (records.foldl (sorterAdd key enc k) ⟨[], []⟩)) : Multiset δ)
      = (↑(records.map enc) : Multiset δ) := by
    rw [hflat]
    simp [stFlat]
  set st := records.foldl (sorterAdd key enc k) (⟨[], []⟩ : SorterState κ δ) with hst
  have hfne : st.files ≠ [] := by
    intro habs
    have hcard := congrArg Multiset.card hflat2
    simp only [stFlat, habs, List.flatMap_nil, List.nil_append, Multiset.coe_card,
      List.length_map] at hcard
    omega
  have hspill : (∀ f ∈ (spillState st).files, SortedFile key dec f)
      ∧ (↑((spillState st).files.flatMap id) : Multiset δ) = (↑(stFlat st) : Multiset δ) := by
    rcases spillState_facts key dec st hgood hfsorted with ⟨h1, h2, _⟩ | ⟨heq, hempty⟩
    · exact ⟨h1, h2⟩
    · rw [heq]
      refine ⟨hfsorted, ?_⟩
      simp [stFlat, hempty]
  obtain ⟨hinitheap, hinitok, hinitsum⟩ :=
    mergeInit_facts key dec (spillState st).files hspill.1
  have hdrain_mult : (↑(mergeDrain key dec (spillState st).files) : Multiset α)
      = (↑(records.map (fun r => dec (enc r))) : Multiset α) := by
    rw [mergeDrain, mergeDrainGo_multiset key dec _ _
      (le_of_eq (heapTotalSize_eq_sizeM _).symm), hinitsum,
      files_contents_flatten dec]
    have : (↑(((spillState st).files.flatMap id).map dec) : Multiset α)
        = Multiset.map dec (↑((spillState st).files.flatMap id) : Multiset δ) := by
      rw [Multiset.map_coe]
    rw [this, hspill.2, hflat2, Multiset.map_coe, List.map_map]
    rfl
  obtain ⟨hdrain_sorted, _⟩ := mergeDrainGo_spec key dec _ (mergeInit key dec (spillState st).files)
    (le_of_eq (heapTotalSize_eq_sizeM _).symm) hinitheap hinitok
  have hcond : (!st.files.isEmpty || alwaysSpill) = true := by
    match hfe : st.files with
    | [] => exact absurd hfe hfne
    | f :: fs => simp
  have hiter : sorterIterate key enc dec k alwaysSpill records
      = mergeDrain key dec (spillState st).files := by
    simp only [sorterIterate, sorterAddAll, ← hst]
    rw [hcond]
    simp
  have hgoodentries : ∀ e ∈ records.map (fun r => (key r, enc r)), key (dec e.2) = e.1 := by
    intro e he
    rcases List.mem_map.mp he with ⟨r, _, rfl⟩
    exact hrt r
  have hinmem_perm : (inMemorySortAll key enc dec records).Perm
      (records.map (fun r => dec (enc r))) := by
    have h1 : ((pysorted (records.map (fun r => (key r, enc r)))).map
        (fun e => dec e.2)).Perm
        ((records.map (fun r => (key r, enc r))).map (fun e => dec e.2)) :=
      (pysorted_perm _).map _
    simpa [inMemorySortAll, List.map_map, Function.comp] using h1
  have hinmem_sorted : List.Sorted (· ≤ ·)
      ((inMemorySortAll key enc dec records).map key) := by
    have hmapeq : ((pysorted (records.map (fun r => (key r, enc r)))).map
        (fun e => dec e.2)).map key
        = (pysorted (records.map (fun r => (key r, enc r)))).map Prod.fst := by
      rw [List.map_map]
      apply List.map_congr_left
      intro e he
      have : e ∈ records.map (fun r => (key r, enc r)) := (pysorted_perm _).mem_iff.mp he
      exact hgoodentries e this
    rw [inMemorySortAll, hmapeq]
    exact pysorted_sorted _
  have hperm : (sorterIterate key enc dec k alwaysSpill records).Perm
      (inMemorySortAll key enc dec records) := by
    rw [hiter]
    rw [← Multiset.coe_eq_coe, hdrain_mult, Multiset.coe_eq_coe]
    exact hinmem_perm.symm
  have hsorted : List.Sorted (· ≤ ·)
      ((sorterIterate key enc dec k alwaysSpill records).map key) := by
    rw [hiter]
    exact hdrain_sorted
  refine ⟨hperm, hsorted, ?_, ?_⟩
  · intro hnd
    have hnd2 : ((sorterIterate key enc dec k alwaysSpill records).map key).Nodup := by
      have hp2 : ((sorterIterate key enc dec k alwaysSpill records).map key).Perm
          ((records.map (fun r => dec (enc r))).map key) := by
        refine List.Perm.map key ?_
        rw [hiter]
        rw [← Multiset.coe_eq_coe, hdrain_mult]
      have hmk : (records.map (fun r => dec (enc r))).map key = records.map key := by
        rw [List.map_map]
        apply List.map_congr_left
        intro r _
        exact hrt r
      rw [hp2.nodup_iff, hmk]
      exact hnd
    exact eq_of_perm_of_sorted_keys key _ _ hperm hsorted hinmem_sorted hnd2
  · intro k2 hk2
    have hnospill := sorterAddAll_no_spill key enc k2 records ⟨[], []⟩ (by simpa using hk2)
    show (if !(records.foldl (sorterAdd key enc k2) ⟨[], []⟩ : SorterState κ δ).files.isEmpty
          || false then
        mergeDrain key dec (spillState (records.foldl (sorterAdd key enc k2) ⟨[], []⟩)).files
      else inMemoryIter dec (records.foldl (sorterAdd key enc k2) ⟨[], []⟩))
        = inMemorySortAll key enc dec records
    rw [hnospill]
    simp only [List.isEmpty_nil, Bool.not_true, Bool.false_or, Bool.or_false, if_false]
    rfl

/-- C1 counterexample: four records with equal keys and
`max_objects_in_ram = 2` (so `1 <= k <= N`).  The two spill files hold
records 1,2 and 3,4; the heapq merge emits 1,3,2,4 while the in-memory
stable sort keeps 1,2,3,4 — the spilled merge does not preserve the
relative order of equal-key records, so the claimed equivalence fails. -/
theorem sorter_spill_merge_unstable_counterexample :
    sorterIterate (fun _ : Nat => (0 : Nat)) id id 2 true [1, 2, 3, 4] = [1, 3, 2, 4]
    ∧ inMemorySortAll (fun _ : Nat => (0 : Nat)) id id [1, 2, 3, 4] = [1, 2, 3, 4]
    ∧ sorterIterate (fun _ : Nat => (0 : Nat)) id id 2 true [1, 2, 3, 4]
        ≠ inMemorySortAll (fun _ : Nat => (0 : Nat)) id id [1, 2, 3, 4] := by
  refine ⟨by decide, by decide, by decide⟩

/-- C1 witness: distinct keys, three records, `k = 2`. -/
theorem sorter_spill_merge_equivalence_witness :
    (sorterIterate (fun n : Nat => n) id id 2 true [2, 1, 3]).Perm
        (inMemorySortAll (fun n : Nat => n) id id [2, 1, 3])
    ∧ List.Sorted (· ≤ ·) ((sorterIterate (fun n : Nat => n) id id 2 true [2, 1, 3]).map
        (fun n : Nat => n))
    ∧ (([2, 1, 3].map (fun n : Nat => n)).Nodup →
        sorterIterate (fun n : Nat => n) id id 2 true [2, 1, 3]
          = inMemorySortAll (fun n : Nat => n) id id [2, 1, 3])
    ∧ (∀ k2, ([2, 1, 3] : List Nat).length < k2 →
        sorterIterate (fun n : Nat => n) id id k2 false [2, 1, 3]
          = inMemorySortAll (fun n : Nat => n) id id [2, 1, 3]) :=
  sorter_spill_merge_equivalence (fun n : Nat => n) id id [2, 1, 3] 2 true
    (by decide) (by decide) (fun r => rfl)
